import Mathlib

/-!
Verification of the maze engine of `a_maze_ing` (files `maze_generator.py` and
`forty_two.py`): the grid/wall data model, the DFS carver, the loop adder with
its 3x3 corridor constraint, the "42" pattern stamp, and the BFS solver.

Conventions of the shallow embedding:
* A cell is an `ℤ × ℤ` coordinate `(x, y)` — deltas can go negative before the
  bounds check, exactly as in the Python source.
* The grid is a `List (List ℕ)` of 4-bit wall masks (row-major, `grid[y][x]`),
  as in the source.  Reads and writes use `toNat` indices; they are only ever
  exercised in-bounds under the theorems' hypotheses.
* Python exceptions are modelled by `Except String`.
* The global `random` stream is modelled by an infinite sequence of natural
  draws (`RNG`); `random.seed` replaces the stream by a pure function of the
  seed.  Claims quantified over "every sequence of random choices" quantify
  over the stream.
* `while` loops are modelled with an explicit fuel that is provably sufficient
  (the fuel-exhaustion branch is never reached under the theorems' hypotheses,
  which is proved where needed).
-/

set_option maxHeartbeats 1000000

namespace AMazeIng

/-- A cell coordinate `(x, y)`. -/
abbrev Cell := ℤ × ℤ

/-- Cardinal directions stored as wall bitmasks (N=1, E=2, S=4, W=8),
from `class Direction(Enum)`. -/
inductive Direction : Type
  | north
  | east
  | south
  | west
deriving DecidableEq, Repr

instance : Inhabited Direction := ⟨Direction.north⟩

namespace Direction

/-- The enum member value (wall bit). -/
def value : Direction → ℕ
  | north => 1
  | east => 2
  | south => 4
  | west => 8

/-- `Direction.opposite`. -/
def opposite : Direction → Direction
  | north => south
  | south => north
  | east => west
  | west => east

/-- `Direction.delta`: `(dx, dy)` for one step. -/
def delta : Direction → ℤ × ℤ
  | north => (0, -1)
  | east => (1, 0)
  | south => (0, 1)
  | west => (-1, 0)

/-- `Direction.letter`: single-letter code used in path strings. -/
def letter : Direction → Char
  | north => 'N'
  | east => 'E'
  | south => 'S'
  | west => 'W'

/-- Iteration order of `for direction in Direction` (definition order). -/
def all : List Direction := [north, east, south, west]

end Direction

/-- The wall grid: a list of rows, each a list of masks (`maze.grid`). -/
abbrev Grid := List (List ℕ)

/-- Read `grid[y][x]` (total; out-of-range reads return 0 and are never
exercised under the theorems' hypotheses). -/
def getCell (g : Grid) (c : Cell) : ℕ :=
  (g.getD c.2.toNat []).getD c.1.toNat 0

/-- Write `grid[y][x] = v`. -/
def setCell (g : Grid) (c : Cell) (v : ℕ) : Grid :=
  g.set c.2.toNat ((g.getD c.2.toNat []).set c.1.toNat v)

/-- `Maze`: rectangular grid maze state. -/
structure Maze where
  width : ℕ
  height : ℕ
  entry : Cell
  exitPos : Cell
  grid : Grid
  visited : Finset Cell
deriving DecidableEq

/-- `0 <= x < width and 0 <= y < height` (`Maze.is_in_bounds`). -/
def isInB (width height : ℕ) (c : Cell) : Bool :=
  decide (0 ≤ c.1) && decide (c.1 < (width : ℤ)) &&
    decide (0 ≤ c.2) && decide (c.2 < (height : ℤ))

def Maze.isInBounds (m : Maze) (c : Cell) : Bool :=
  isInB m.width m.height c

/-- `Maze._validate_coord`. -/
def validateCoord (width height : ℕ) (c : Cell) (name : String) :
    Except String Cell :=
  if isInB width height c then .ok c
  else .error (name ++ " coordinate is outside maze bounds.")

/-- `Maze.__init__`: dimension checks, coordinate validation, entry/exit
distinctness, then the all-walls grid (value 15 everywhere).  The
`random.seed(seed)` call in the source mutates the global stream; that effect
is modelled at the `generate` level (`MazeGenState.generate`). -/
def mkMaze (width height : ℕ) (entry exitPos : Cell) : Except String Maze := do
  if width = 0 then throw "Width must be a positive integer."
  if height = 0 then throw "Height must be a positive integer."
  let entryV ← validateCoord width height entry "entry"
  let exitV ← validateCoord width height exitPos "exit"
  if entryV = exitV then throw "Entry and exit points cannot be the same."
  pure { width := width, height := height, entry := entryV, exitPos := exitV,
         grid := List.replicate height (List.replicate width 15),
         visited := ∅ }

/-- `_get_neighbours`: all in-bounds neighbours with their directions, in
`Direction` enumeration order. -/
def getNeighbours (width height : ℕ) (c : Cell) : List (Cell × Direction) :=
  Direction.all.filterMap fun d =>
    let n : Cell := (c.1 + d.delta.1, c.2 + d.delta.2)
    if isInB width height n then some (n, d) else none

/-- The `{d.delta: d for d in Direction}.get((dx, dy))` lookup of
`_remove_wall`. -/
def deltaToDir (d : ℤ × ℤ) : Option Direction :=
  Direction.all.find? fun dir => dir.delta = d

/-- `m &= ~v` on a (nonnegative) mask: clear the bits of `v`. -/
def clearBits (m v : ℕ) : ℕ := m - (m &&& v)

/-- `_remove_wall`: clear the facing bits on both sides; `ValueError` when the
cells are not 4-adjacent. -/
def removeWall (g : Grid) (a b : Cell) : Except String Grid :=
  match deltaToDir (b.1 - a.1, b.2 - a.2) with
  | none => .error "Cells are not adjacent."
  | some dir =>
    let g1 := setCell g a (clearBits (getCell g a) dir.value)
    .ok (setCell g1 b (clearBits (getCell g1 b) dir.opposite.value))

/-- `_add_wall_back`: set the facing bits on both sides; `ValueError` when the
cells are not 4-adjacent. -/
def addWallBack (g : Grid) (a b : Cell) : Except String Grid :=
  match Direction.all.find? (fun d => d.delta = (b.1 - a.1, b.2 - a.2)) with
  | none => .error "Cells are not adjacent."
  | some dir =>
    let g1 := setCell g a (getCell g a ||| dir.value)
    .ok (setCell g1 b (getCell g1 b ||| dir.opposite.value))

/-- `_has_wall`: bit test. -/
def hasWall (g : Grid) (c : Cell) (d : Direction) : Bool :=
  (getCell g c &&& d.value) != 0

/-! ### Random stream -/

/-- Model of the Python global `random` stream: an infinite sequence of
natural-number draws. -/
abbrev RNG := ℕ → ℕ

def RNG.head (r : RNG) : ℕ := r 0

def RNG.tail (r : RNG) : RNG := fun n => r (n + 1)

/-- `random.choice` driven by the stream: index `head % length` (any element
is reachable for a suitable stream; the default is never used on the
nonempty lists `choice` is applied to). -/
def rngChoice (r : RNG) (l : List α) (dflt : α) : α × RNG :=
  (l.getD (RNG.head r % l.length) dflt, RNG.tail r)

/-- `random.randint(lo, hi)` (inclusive bounds) driven by the stream. -/
def rngRandInt (r : RNG) (lo hi : ℤ) : ℤ × RNG :=
  (lo + (RNG.head r : ℤ) % (hi - lo + 1), RNG.tail r)

/-- Selection core of the `random.shuffle` model: repeatedly extract the
element at a stream-chosen index. -/
def rngShuffleGo [Inhabited α] : ℕ → RNG → List α → List α × RNG
  | 0, r, l => (l, r)
  | fuel + 1, r, l =>
    match l with
    | [] => ([], r)
    | x :: xs =>
      let i := RNG.head r % (x :: xs).length
      let picked := (x :: xs).getD i default
      let res := rngShuffleGo fuel (RNG.tail r) ((x :: xs).eraseIdx i)
      (picked :: res.1, res.2)

/-- Model of `random.shuffle`: a stream-driven permutation (any permutation is
reachable for a suitable stream). -/
def rngShuffle [Inhabited α] (r : RNG) (l : List α) : List α × RNG :=
  rngShuffleGo l.length r l

/-- Fixed model of the stream produced by `random.seed(seed)`: a pure function
of the seed (a linear congruential stream; the particular values are
irrelevant to every claim). -/
def seedRNG (seed : ℕ) : RNG := fun n =>
  Nat.iterate (fun s => (s * 1103515245 + 12345) % 2147483648) (n + 1) seed

/-! ### DFS carver -/

/-- Fuel bound for the DFS `while stack:` loop (provably sufficient). -/
def dfsFuel (width height : ℕ) : ℕ := 2 * (width * height) + 1

/-- One-step body plus loop of `_generate_dfs`.  The stack is kept top-first
(Python appends/pops at the right end).  Fuel exhaustion returns the current
state; `dfsFuel` makes that branch unreachable. -/
def dfsLoop (width height : ℕ) (blocked : Finset Cell) :
    ℕ → Grid → Finset Cell → List Cell → RNG →
      Except String (Grid × Finset Cell × RNG)
  | 0, g, vis, _, r => .ok (g, vis, r)
  | fuel + 1, g, vis, stck, r =>
    match stck with
    | [] => .ok (g, vis, r)
    | current :: rest =>
      let unvisited := (getNeighbours width height current).filter
        fun p => decide (p.1 ∉ vis ∧ p.1 ∉ blocked)
      if unvisited.isEmpty then
        dfsLoop width height blocked fuel g vis rest r
      else
        let ch := rngChoice r unvisited ((0, 0), Direction.north)
        match removeWall g current ch.1.1 with
        | .error e => .error e
        | .ok g' =>
          dfsLoop width height blocked fuel g' (insert ch.1.1 vis)
            (ch.1.1 :: current :: rest) ch.2

/-- `_generate_dfs`: iterative randomized DFS carving from `entry`, never
entering `blocked` cells. -/
def generateDfs (m : Maze) (blocked : Finset Cell) (r : RNG) :
    Except String (Maze × RNG) :=
  (dfsLoop m.width m.height blocked (dfsFuel m.width m.height)
      m.grid (insert m.entry m.visited) [m.entry] r).map
    fun t => ({ m with grid := t.1, visited := t.2.1 }, t.2.2)

/-! ### 3x3 open-area detection and the loop adder -/

/-- `_has_3x3_open`: the 3x3 block with top-left `(x, y)` has all interior
east/south walls cleared. -/
def has3x3Open (g : Grid) (x y : ℤ) : Bool :=
  (List.range 3).all fun i => (List.range 3).all fun j =>
    (if j < 2 then !(hasWall g (x + (j : ℤ), y + (i : ℤ)) Direction.east)
     else true) &&
    (if i < 2 then !(hasWall g (x + (j : ℤ), y + (i : ℤ)) Direction.south)
     else true)

/-- `_creates_3x3_nearby`: some fully open 3x3 block with top-left within
`[-2, 0]` of `(x, y)` (and within the valid origin range). -/
def creates3x3Nearby (width height : ℕ) (g : Grid) (x y : ℤ) : Bool :=
  (List.range 3).any fun dy => (List.range 3).any fun dx =>
    let cx := x + (dx : ℤ) - 2
    let cy := y + (dy : ℤ) - 2
    decide (0 ≤ cx) && decide (cx ≤ (width : ℤ) - 3) &&
      decide (0 ≤ cy) && decide (cy ≤ (height : ℤ) - 3) &&
      has3x3Open g cx cy

/-- The inner `for (nx, ny), direction in neighbours:` loop of
`_add_cycles_safely`: act on the first non-forbidden neighbour with a present
wall, then break. -/
def tryNeighbours (width height : ℕ) (blocked : Finset Cell) (g : Grid)
    (c : Cell) : List (Cell × Direction) → Except String Grid
  | [] => .ok g
  | (n, d) :: rest =>
    if n ∈ blocked then tryNeighbours width height blocked g c rest
    else if !(hasWall g c d) then tryNeighbours width height blocked g c rest
    else
      match removeWall g c n with
      | .error e => .error e
      | .ok g' =>
        if creates3x3Nearby width height g' c.1 c.2 then addWallBack g' c n
        else .ok g'

/-- One attempt of `_add_cycles_safely`: pick a random cell, skip it when
forbidden, else shuffle its neighbours and try to open one wall. -/
def addCyclesAttempt (width height : ℕ) (blocked : Finset Cell) (g : Grid)
    (r : RNG) : Except String (Grid × RNG) :=
  let p1 := rngRandInt r 0 ((width : ℤ) - 1)
  let p2 := rngRandInt p1.2 0 ((height : ℤ) - 1)
  if (p1.1, p2.1) ∈ blocked then .ok (g, p2.2)
  else
    let sh := rngShuffle p2.2 (getNeighbours width height (p1.1, p2.1))
    (tryNeighbours width height blocked g (p1.1, p2.1) sh.1).map
      fun g' => (g', sh.2)

/-- The `for _ in range(attempts):` loop of `_add_cycles_safely`. -/
def addCyclesLoop (width height : ℕ) (blocked : Finset Cell) :
    ℕ → Grid → RNG → Except String (Grid × RNG)
  | 0, g, r => .ok (g, r)
  | k + 1, g, r =>
    match addCyclesAttempt width height blocked g r with
    | .error e => .error e
    | .ok gr => addCyclesLoop width height blocked k gr.1 gr.2

/-- `_add_cycles_safely`: open extra walls to create loops, rejecting any
opening that creates a fully open 3x3 area. -/
def addCyclesSafely (m : Maze) (blocked : Finset Cell) (attempts : ℕ)
    (r : RNG) : Except String (Maze × RNG) :=
  (addCyclesLoop m.width m.height blocked attempts m.grid r).map
    fun t => ({ m with grid := t.1 }, t.2)

/-! ### BFS solver -/

/-- Fuel bound for the BFS `while queue:` loop (provably sufficient). -/
def bfsFuel (width height : ℕ) : ℕ := 2 * (width * height) + 1

/-- The `while queue:` loop of `_solve_bfs`.  The queue is a FIFO list of
`(cell, path)` with the front at the head; new entries are appended at the
right, and neighbours are scanned in `_get_neighbours` order with the visited
set updated as each is enqueued.  The path is kept as a `List Direction`; the
source's string is its letters. -/
def bfsLoop (width height : ℕ) (target : Cell) (blocked : Finset Cell)
    (g : Grid) : ℕ → Finset Cell → List (Cell × List Direction) →
      List Direction
  | 0, _, _ => []
  | fuel + 1, vis, queue =>
    match queue with
    | [] => []
    | (current, path) :: qrest =>
      if current = target then path
      else
        let next := (getNeighbours width height current).foldl
          (fun acc p =>
            if decide (p.1 ∉ acc.1) && !(hasWall g current p.2) &&
                decide (p.1 ∉ blocked) then
              (insert p.1 acc.1, acc.2 ++ [(p.1, path ++ [p.2])])
            else acc)
          (vis, qrest)
        bfsLoop width height target blocked g fuel next.1 next.2

/-- `_solve_bfs` as a direction list: shortest path from entry to exit, or
`[]` when the queue empties without dequeuing the exit. -/
def solveBfsDirs (m : Maze) (blocked : Finset Cell) : List Direction :=
  bfsLoop m.width m.height m.exitPos blocked m.grid
    (bfsFuel m.width m.height) {m.entry} [(m.entry, [])]

/-- `_solve_bfs`: the returned path string (`"".join(path)`). -/
def solveBfs (m : Maze) (blocked : Finset Cell) : String :=
  ⟨(solveBfsDirs m blocked).map Direction.letter⟩

/-! ### The "42" pattern (`forty_two.py`) -/

/-- `PATTERN_42`: pixel-art bitmap for "42". -/
def PATTERN_42 : List (List ℕ) :=
  [[1, 0, 1, 0, 0, 1, 1, 1],
   [1, 0, 1, 0, 0, 0, 0, 1],
   [1, 1, 1, 0, 0, 1, 1, 1],
   [0, 0, 1, 0, 0, 1, 1, 0],
   [0, 0, 1, 0, 0, 1, 1, 1]]

def PATTERN_H : ℕ := PATTERN_42.length

def PATTERN_W : ℕ := (PATTERN_42.getD 0 []).length

def MIN_WIDTH : ℕ := PATTERN_W + 2

def MIN_HEIGHT : ℕ := PATTERN_H + 2

/-- `can_fit_42`. -/
def canFit42 (width height : ℕ) : Bool :=
  decide (MIN_WIDTH ≤ width) && decide (MIN_HEIGHT ≤ height)

/-- `PATTERN_42[row][col]` (0 outside the bitmap). -/
def pattern42Bit (row col : ℕ) : ℕ := (PATTERN_42.getD row []).getD col 0

/-- The absolute coordinates of the bitmap-1 cells for the centered origin,
in the row-major order both `get_42_cells` and `embed_42` traverse. -/
def get42List (width height : ℕ) : List Cell :=
  (List.range PATTERN_H).flatMap fun row =>
    (List.range PATTERN_W).filterMap fun col =>
      if pattern42Bit row col ≠ 0 then
        some ((((width - PATTERN_W) / 2 + col : ℕ) : ℤ),
              (((height - PATTERN_H) / 2 + row : ℕ) : ℤ))
      else none

/-- `get_42_cells`: the pattern cell set, empty when the maze is too small.
The centered origin `((width - PATTERN_W) // 2, (height - PATTERN_H) // 2)`
is computed (in the source, after the fit check, so the operands are
nonnegative) in `get42List`. -/
def get42Cells (width height : ℕ) : Finset Cell :=
  if canFit42 width height then (get42List width height).toFinset else ∅

/-- `embed_42`: stamp mask 0xF on every pattern cell (after a fit check);
returns the updated grid and the stamped set. -/
def embed42 (g : Grid) (width height : ℕ) : Grid × Finset Cell :=
  if canFit42 width height then
    ((get42List width height).foldl (fun acc c => setCell acc c 15) g,
     (get42List width height).toFinset)
  else (g, ∅)

/-! ### `MazeGenerator` -/

/-- The state of a `MazeGenerator` instance (`__init__` fields; `mazeOpt` is
`_maze`, `forbidden` is `_forbidden`). -/
structure MazeGenState where
  width : ℕ
  height : ℕ
  entry : Cell
  exitPos : Cell
  seed : Option ℕ
  perfect : Bool
  mazeOpt : Option Maze
  forbidden : Finset Cell

/-- `MazeGenerator.__init__`. -/
def MazeGenState.init (width height : ℕ) (entry exitPos : Cell)
    (seed : Option ℕ) (perfect : Bool) : MazeGenState :=
  ⟨width, height, entry, exitPos, seed, perfect, none, ∅⟩

/-- `MazeGenerator.generate`: build the maze (seeding the stream when a seed
is given), precompute the forbidden set, carve, optionally add cycles, then
stamp the pattern (the stamp returns the authoritative forbidden set). -/
def MazeGenState.generate (st : MazeGenState) (ambient : RNG) :
    Except String MazeGenState := do
  let r0 : RNG := match st.seed with | some s => seedRNG s | none => ambient
  let m ← mkMaze st.width st.height st.entry st.exitPos
  let forb := get42Cells st.width st.height
  let (m1, r1) ← generateDfs m forb r0
  let m2 ← if st.perfect then pure m1
    else (addCyclesSafely m1 forb 300 r1).map Prod.fst
  let stamped := embed42 m2.grid st.width st.height
  pure { st with mazeOpt := some { m2 with grid := stamped.1 },
                 forbidden := stamped.2 }

/-- The `grid` property: `RuntimeError` before `generate()`. -/
def MazeGenState.gridAccess (st : MazeGenState) : Except String Grid :=
  match st.mazeOpt with
  | none => .error "Call generate() before accessing the grid."
  | some m => .ok m.grid

/-- The `forbidden_cells` property: `RuntimeError` before `generate()`. -/
def MazeGenState.forbiddenCells (st : MazeGenState) :
    Except String (Finset Cell) :=
  match st.mazeOpt with
  | none => .error "Call generate() before accessing forbidden_cells."
  | some _ => .ok st.forbidden

/-- `MazeGenerator.solve`: `RuntimeError` before `generate()`, else the BFS
path string. -/
def MazeGenState.solve (st : MazeGenState) : Except String String :=
  match st.mazeOpt with
  | none => .error "Call generate() before calling solve()."
  | some m => .ok (solveBfs m st.forbidden)

/-! ## Well-formedness and grid access lemmas -/

/-- The grid has `height` rows of `width` cells each. -/
def GridWF (width height : ℕ) (g : Grid) : Prop :=
  g.length = height ∧ ∀ i, i < height → (g.getD i []).length = width

/-- Propositional form of the bounds test. -/
theorem isInB_iff {width height : ℕ} {c : Cell} :
    isInB width height c = true ↔
      0 ≤ c.1 ∧ c.1 < (width : ℤ) ∧ 0 ≤ c.2 ∧ c.2 < (height : ℤ) := by
  simp [isInB, and_assoc]

theorem length_setCell (g : Grid) (c : Cell) (v : ℕ) :
    (setCell g c v).length = g.length := by
  simp [setCell]

theorem getD_set_self {α : Type} (l : List α) {i : ℕ} (a d : α)
    (h : i < l.length) : (l.set i a).getD i d = a := by
  rw [List.getD_eq_getElem?_getD, List.getElem?_set_eq_of_lt _ h]
  rfl

theorem getD_set_ne {α : Type} (l : List α) {i j : ℕ} (hne : i ≠ j)
    (a d : α) : (l.set i a).getD j d = l.getD j d := by
  rw [List.getD_eq_getElem?_getD, List.getElem?_set_ne hne,
    ← List.getD_eq_getElem?_getD]

theorem gridWF_setCell {width height : ℕ} {g : Grid} (hwf : GridWF width height g)
    (c : Cell) (v : ℕ) : GridWF width height (setCell g c v) := by
  obtain ⟨hlen, hrow⟩ := hwf
  refine ⟨by simp [setCell, hlen], fun i hi => ?_⟩
  by_cases hy : c.2.toNat = i
  · subst hy
    rcases Nat.lt_or_ge c.2.toNat g.length with hlt | hge
    · rw [setCell, getD_set_self _ _ _ hlt, List.length_set]
      exact hrow _ hi
    · rw [setCell, List.set_eq_of_length_le (by omega)]
      exact hrow _ hi
  · rw [setCell, getD_set_ne _ hy]
    exact hrow _ hi

theorem getCell_setCell_self {width height : ℕ} {g : Grid}
    (hwf : GridWF width height g) {c : Cell} (hc : isInB width height c = true)
    (v : ℕ) : getCell (setCell g c v) c = v := by
  obtain ⟨hx0, hxw, hy0, hyh⟩ := isInB_iff.1 hc
  obtain ⟨hlen, hrow⟩ := hwf
  have hy : c.2.toNat < g.length := by rw [hlen]; omega
  have hx : c.1.toNat < (g.getD c.2.toNat []).length := by
    rw [hrow c.2.toNat (by omega)]; omega
  rw [getCell, setCell, getD_set_self _ _ _ hy, getD_set_self _ _ _ hx]

/-- Writing one cell leaves any cell with a different `toNat` index pair
unchanged. -/
theorem getCell_setCell_ne {g : Grid} {c c' : Cell}
    (hne : c'.1.toNat ≠ c.1.toNat ∨ c'.2.toNat ≠ c.2.toNat) (v : ℕ) :
    getCell (setCell g c v) c' = getCell g c' := by
  rcases eq_or_ne c'.2.toNat c.2.toNat with hy | hy
  · rcases hne with hx | hy'
    · rw [getCell, getCell, setCell, hy]
      rcases Nat.lt_or_ge c.2.toNat g.length with hlt | hge
      · rw [getD_set_self _ _ _ hlt, getD_set_ne _ (fun h => hx h.symm)]
      · rw [List.set_eq_of_length_le (by omega)]
    · exact absurd hy hy'
  · rw [getCell, getCell, setCell, getD_set_ne _ (fun h => hy h.symm)]

/-- Distinct in-bounds cells have distinct `toNat` index pairs. -/
theorem toNat_ne_of_ne {width height : ℕ} {c c' : Cell}
    (hc : isInB width height c = true) (hc' : isInB width height c' = true)
    (hne : c ≠ c') : c'.1.toNat ≠ c.1.toNat ∨ c'.2.toNat ≠ c.2.toNat := by
  obtain ⟨a1, a2, a3, a4⟩ := isInB_iff.1 hc
  obtain ⟨b1, b2, b3, b4⟩ := isInB_iff.1 hc'
  by_contra h
  push_neg at h
  exact hne (Prod.ext (by omega) (by omega)).symm

/-! ## C5 / C6: the "42" pattern -/

theorem pattern_dims : PATTERN_H = 5 ∧ PATTERN_W = 8 := by decide

/-- Cells listed by `get42List` are in bounds when the pattern fits. -/
theorem get42List_inB {width height : ℕ} (hfit : canFit42 width height = true)
    {c : Cell} (hc : c ∈ get42List width height) : isInB width height c = true := by
  have hw : 10 ≤ width ∧ 7 ≤ height := by
    have := hfit
    simp only [canFit42, MIN_WIDTH, MIN_HEIGHT, Bool.and_eq_true,
      decide_eq_true_eq] at this
    exact ⟨by have := this.1; simp [PATTERN_W, PATTERN_42] at this; omega,
      by have := this.2; simp [PATTERN_H, PATTERN_42] at this; omega⟩
  simp only [get42List, List.mem_flatMap, List.mem_filterMap,
    List.mem_range] at hc
  obtain ⟨row, hrow, col, hcol, hbit⟩ := hc
  split at hbit
  · cases hbit
    rw [isInB_iff]
    have hPW : PATTERN_W = 8 := pattern_dims.2
    have hPH : PATTERN_H = 5 := pattern_dims.1
    rw [hPH] at hrow
    rw [hPW] at hcol
    have hx : (width - PATTERN_W) / 2 + col < width := by rw [hPW]; omega
    have hy : (height - PATTERN_H) / 2 + row < height := by rw [hPH]; omega
    exact ⟨Int.ofNat_nonneg _, Int.ofNat_lt.2 hx,
      Int.ofNat_nonneg _, Int.ofNat_lt.2 hy⟩
  · cases hbit

/-- C5: the pre-carving prediction `get_42_cells(width, height)` equals the
set `embed_42` stamps and returns, for every grid contents; both are pure
functions of `(width, height)` alone. -/
theorem c5_prediction_equals_stamp (width height : ℕ) (g : Grid) :
    (embed42 g width height).2 = get42Cells width height ∧
      ∀ g' : Grid, (embed42 g width height).2 = (embed42 g' width height).2 := by
  constructor
  · rw [embed42, get42Cells]
    split <;> rfl
  · intro g'
    rw [embed42, embed42]
    split <;> rfl

theorem gridWF_foldl_stamp {width height : ℕ} :
    ∀ (l : List Cell) {g : Grid}, GridWF width height g →
      GridWF width height (l.foldl (fun acc c => setCell acc c 15) g)
  | [], _, hwf => hwf
  | a :: t, g, hwf => by
    rw [List.foldl_cons]
    exact gridWF_foldl_stamp t (gridWF_setCell hwf a 15)

/-- Folding the stamp over a list of in-bounds cells leaves any in-bounds
cell outside the list unchanged. -/
theorem foldl_stamp_not_mem {width height : ℕ} :
    ∀ (l : List Cell) (g : Grid),
      (∀ c ∈ l, isInB width height c = true) →
      ∀ c : Cell, isInB width height c = true → c ∉ l →
        getCell (l.foldl (fun acc c => setCell acc c 15) g) c = getCell g c := by
  intro l
  induction l with
  | nil => intro g _ c _ _; rfl
  | cons a t ih =>
    intro g hinb c hc hnm
    rw [List.foldl_cons,
      ih _ (fun d hd => hinb d (List.mem_cons_of_mem _ hd)) c hc
        (fun h => hnm (List.mem_cons_of_mem _ h))]
    have hac : a ≠ c := fun h => hnm (by rw [← h]; exact List.mem_cons_self a t)
    exact getCell_setCell_ne
      (toNat_ne_of_ne (hinb a (List.mem_cons_self a t)) hc hac) 15

/-- After folding the stamp over a duplicate-free-or-not list of in-bounds
cells, every member cell reads 15. -/
theorem foldl_stamp_mem {width height : ℕ} :
    ∀ (l : List Cell) (g : Grid), GridWF width height g →
      (∀ c ∈ l, isInB width height c = true) →
      ∀ c ∈ l, getCell (l.foldl (fun acc c => setCell acc c 15) g) c = 15 := by
  intro l
  induction l with
  | nil => intro g _ _ c hc; cases hc
  | cons a t ih =>
    intro g hwf hinb c hc
    have hwf' : GridWF width height (setCell g a 15) := gridWF_setCell hwf a 15
    have hinbt : ∀ d ∈ t, isInB width height d = true :=
      fun d hd => hinb d (List.mem_cons_of_mem _ hd)
    rcases List.mem_cons.1 hc with rfl | hct
    · by_cases hmem : c ∈ t
      · exact ih (setCell g c 15) hwf' hinbt c hmem
      · rw [List.foldl_cons,
          foldl_stamp_not_mem t (setCell g c 15) hinbt c
            (hinb c (List.mem_cons_self c t)) hmem]
        exact getCell_setCell_self hwf (hinb c (List.mem_cons_self c t)) 15
    · exact ih (setCell g a 15) hwf' hinbt c hct

theorem canFit42_iff (width height : ℕ) :
    canFit42 width height = true ↔ 10 ≤ width ∧ 7 ≤ height := by
  have hW : MIN_WIDTH = 10 := by decide
  have hH : MIN_HEIGHT = 7 := by decide
  simp [canFit42, hW, hH]

/-- C6: when the pattern fits (width ≥ 10 and height ≥ 7), `embed_42` sets
the mask of every pattern cell to 0xF and leaves every other in-bounds cell
unchanged, returning the stamped set; when it does not fit, it mutates no
cell and returns the empty set. -/
theorem c6_embed42_frame (width height : ℕ) (g : Grid)
    (hwf : GridWF width height g) :
    (canFit42 width height = true ↔ 10 ≤ width ∧ 7 ≤ height) ∧
    (canFit42 width height = true →
      (∀ c ∈ get42Cells width height, getCell (embed42 g width height).1 c = 15) ∧
      (∀ c : Cell, isInB width height c = true → c ∉ get42Cells width height →
        getCell (embed42 g width height).1 c = getCell g c) ∧
      (embed42 g width height).2 = get42Cells width height) ∧
    (canFit42 width height = false →
      (embed42 g width height).1 = g ∧ (embed42 g width height).2 = ∅) := by
  refine ⟨canFit42_iff width height, fun hfit => ?_, fun hnfit => ?_⟩
  · have hinb : ∀ c ∈ get42List width height, isInB width height c = true :=
      fun c hc => get42List_inB hfit hc
    simp only [embed42, get42Cells, hfit, if_true]
    refine ⟨fun c hc => ?_, fun c hcin hcnm => ?_, trivial⟩
    · exact foldl_stamp_mem _ g hwf hinb c (List.mem_toFinset.1 hc)
    · exact foldl_stamp_not_mem _ g hinb c hcin
        (fun h => hcnm (List.mem_toFinset.2 h))
  · simp only [embed42, get42Cells, hnfit, Bool.false_eq_true, if_false]
    exact ⟨trivial, trivial⟩

/-- Witness for C6: on a 10x7 all-walls grid the pattern fits and the
top-left pattern cell `(1, 1)` is stamped to 15. -/
theorem c6_embed42_frame_witness :
    getCell (embed42 (List.replicate 7 (List.replicate 10 15)) 10 7).1
      ((1 : ℤ), (1 : ℤ)) = 15 :=
  ((c6_embed42_frame 10 7 (List.replicate 7 (List.replicate 10 15))
      (by constructor <;> decide)).2.1 (by decide)).1 _ (by decide)

/-! ## C8: wall-operation adjacency errors -/

/-- A unit cardinal coordinate difference (4-adjacency of `b = a + d`). -/
def IsUnitDelta (d : ℤ × ℤ) : Prop :=
  d = (0, -1) ∨ d = (1, 0) ∨ d = (0, 1) ∨ d = (-1, 0)

instance (d : ℤ × ℤ) : Decidable (IsUnitDelta d) := by
  unfold IsUnitDelta
  infer_instance

theorem deltaToDir_none_of_not {d : ℤ × ℤ} (h : ¬ IsUnitDelta d) :
    deltaToDir d = none := by
  rw [deltaToDir, List.find?_eq_none]
  intro dir _
  simp only [decide_eq_true_eq]
  intro hd
  apply h
  rw [← hd]
  cases dir <;> decide

theorem deltaToDir_some_of {d : ℤ × ℤ} (h : IsUnitDelta d) :
    ∃ dir, deltaToDir d = some dir ∧ dir.delta = d := by
  rcases h with h | h | h | h <;> subst h
  · exact ⟨.north, by decide, rfl⟩
  · exact ⟨.east, by decide, rfl⟩
  · exact ⟨.south, by decide, rfl⟩
  · exact ⟨.west, by decide, rfl⟩

theorem find?_delta_eq_deltaToDir (d : ℤ × ℤ) :
    (Direction.all.find? fun dir => dir.delta = d) = deltaToDir d := rfl

theorem unitDelta_ne {a b : Cell} (h : IsUnitDelta (b.1 - a.1, b.2 - a.2)) :
    a ≠ b := by
  rcases h with h | h | h | h <;>
    · intro hab
      rw [hab] at h
      simp only [Prod.mk.injEq, sub_self] at h
      omega

/-- C8: `_remove_wall` and `_add_wall_back` fail exactly on non-4-adjacent
cell pairs; on 4-adjacent pairs they succeed, clearing (resp. setting) the
bit on `a` facing `b` and the mirrored bit on `b` facing `a`, and touching
no other cell. -/
theorem c8_wall_ops_adjacency (width height : ℕ) (g : Grid)
    (hwf : GridWF width height g) (a b : Cell)
    (ha : isInB width height a = true) (hb : isInB width height b = true) :
    ((∃ e, removeWall g a b = .error e) ↔ ¬ IsUnitDelta (b.1 - a.1, b.2 - a.2)) ∧
    ((∃ e, addWallBack g a b = .error e) ↔ ¬ IsUnitDelta (b.1 - a.1, b.2 - a.2)) ∧
    (IsUnitDelta (b.1 - a.1, b.2 - a.2) →
      ∃ dir g' g'', deltaToDir (b.1 - a.1, b.2 - a.2) = some dir ∧
        dir.delta = (b.1 - a.1, b.2 - a.2) ∧
        removeWall g a b = .ok g' ∧
        getCell g' a = clearBits (getCell g a) dir.value ∧
        getCell g' b = clearBits (getCell g b) dir.opposite.value ∧
        (∀ c : Cell, isInB width height c = true → c ≠ a → c ≠ b →
          getCell g' c = getCell g c) ∧
        addWallBack g a b = .ok g'' ∧
        getCell g'' a = (getCell g a ||| dir.value) ∧
        getCell g'' b = (getCell g b ||| dir.opposite.value) ∧
        (∀ c : Cell, isInB width height c = true → c ≠ a → c ≠ b →
          getCell g'' c = getCell g c)) := by
  have hne_ab : IsUnitDelta (b.1 - a.1, b.2 - a.2) → a ≠ b := unitDelta_ne
  constructor
  · constructor
    · rintro ⟨e, he⟩ hu
      obtain ⟨dir, hdir, _⟩ := deltaToDir_some_of hu
      rw [removeWall, hdir] at he
      cases he
    · intro hu
      rw [removeWall, deltaToDir_none_of_not hu]
      exact ⟨_, rfl⟩
  refine ⟨⟨?_, ?_⟩, ?_⟩
  · rintro ⟨e, he⟩ hu
    obtain ⟨dir, hdir, _⟩ := deltaToDir_some_of hu
    rw [addWallBack, find?_delta_eq_deltaToDir, hdir] at he
    cases he
  · intro hu
    rw [addWallBack, find?_delta_eq_deltaToDir, deltaToDir_none_of_not hu]
    exact ⟨_, rfl⟩
  · intro hu
    obtain ⟨dir, hdir, hdelta⟩ := deltaToDir_some_of hu
    have hab : a ≠ b := hne_ab hu
    have htA : b.1.toNat ≠ a.1.toNat ∨ b.2.toNat ≠ a.2.toNat :=
      toNat_ne_of_ne ha hb hab
    have htB : a.1.toNat ≠ b.1.toNat ∨ a.2.toNat ≠ b.2.toNat :=
      toNat_ne_of_ne hb ha hab.symm
    have hrem : removeWall g a b =
        .ok (setCell (setCell g a (clearBits (getCell g a) dir.value)) b
          (clearBits (getCell (setCell g a (clearBits (getCell g a) dir.value)) b)
            dir.opposite.value)) := by
      rw [removeWall, hdir]
    have hadd : addWallBack g a b =
        .ok (setCell (setCell g a (getCell g a ||| dir.value)) b
          (getCell (setCell g a (getCell g a ||| dir.value)) b |||
            dir.opposite.value)) := by
      rw [addWallBack, find?_delta_eq_deltaToDir, hdir]
    refine ⟨dir, _, _, hdir, hdelta, hrem, ?_, ?_, ?_, hadd, ?_, ?_, ?_⟩
    · rw [getCell_setCell_ne htB, getCell_setCell_self hwf ha]
    · rw [getCell_setCell_self (gridWF_setCell hwf a _) hb,
        getCell_setCell_ne htA]
    · intro c hc hca hcb
      rw [getCell_setCell_ne (toNat_ne_of_ne hb hc hcb.symm),
        getCell_setCell_ne (toNat_ne_of_ne ha hc hca.symm)]
    · rw [getCell_setCell_ne htB, getCell_setCell_self hwf ha]
    · rw [getCell_setCell_self (gridWF_setCell hwf a _) hb,
        getCell_setCell_ne htA]
    · intro c hc hca hcb
      rw [getCell_setCell_ne (toNat_ne_of_ne hb hc hcb.symm),
        getCell_setCell_ne (toNat_ne_of_ne ha hc hca.symm)]

/-- Witness for C8: on a 2x1 all-walls grid, `(0,0)` and `(1,0)` are
adjacent and the east/west wall pair is cleared. -/
theorem c8_wall_ops_adjacency_witness :
    ∃ dir g' g'', deltaToDir ((1 : ℤ) - 0, (0 : ℤ) - 0) = some dir ∧
      dir.delta = ((1 : ℤ) - 0, (0 : ℤ) - 0) ∧
      removeWall [[15, 15]] (0, 0) (1, 0) = .ok g' ∧
      getCell g' (0, 0) = clearBits (getCell [[15, 15]] (0, 0)) dir.value ∧
      getCell g' (1, 0) = clearBits (getCell [[15, 15]] (1, 0)) dir.opposite.value ∧
      (∀ c : Cell, isInB 2 1 c = true → c ≠ (0, 0) → c ≠ (1, 0) →
        getCell g' c = getCell [[15, 15]] c) ∧
      addWallBack [[15, 15]] (0, 0) (1, 0) = .ok g'' ∧
      getCell g'' (0, 0) = (getCell [[15, 15]] (0, 0) ||| dir.value) ∧
      getCell g'' (1, 0) = (getCell [[15, 15]] (1, 0) ||| dir.opposite.value) ∧
      (∀ c : Cell, isInB 2 1 c = true → c ≠ (0, 0) → c ≠ (1, 0) →
        getCell g'' c = getCell [[15, 15]] c) :=
  (c8_wall_ops_adjacency 2 1 [[15, 15]] (by constructor <;> decide)
    (0, 0) (1, 0) (by decide) (by decide)).2.2 (by decide)

/-! ## C10: accessor errors before and after `generate()` -/

theorem exceptBind_ok_ex {α β : Type} {x : Except String α}
    {f : α → Except String β} {b : β} (h : x >>= f = .ok b) :
    ∃ a, x = .ok a ∧ f a = .ok b := by
  cases x with
  | error e => cases h
  | ok a => exact ⟨a, rfl, h⟩

/-- C10: on a freshly constructed `MazeGenerator`, the `grid` and
`forbidden_cells` properties and `solve()` all raise `RuntimeError`; once
`generate()` has returned (successfully), none of the three raises. -/
theorem c10_accessors_require_generate (width height : ℕ) (entry exitPos : Cell)
    (seed : Option ℕ) (perfect : Bool) (ambient : RNG) :
    (∃ e, (MazeGenState.init width height entry exitPos seed perfect).gridAccess
        = .error e) ∧
    (∃ e, (MazeGenState.init width height entry exitPos seed perfect).forbiddenCells
        = .error e) ∧
    (∃ e, (MazeGenState.init width height entry exitPos seed perfect).solve
        = .error e) ∧
    (∀ st' : MazeGenState,
      (MazeGenState.init width height entry exitPos seed perfect).generate ambient
          = .ok st' →
        (∃ g, st'.gridAccess = .ok g) ∧
        (∃ f, st'.forbiddenCells = .ok f) ∧
        (∃ p, st'.solve = .ok p)) := by
  refine ⟨⟨_, rfl⟩, ⟨_, rfl⟩, ⟨_, rfl⟩, fun st' hgen => ?_⟩
  have hsome : ∃ m, st'.mazeOpt = some m := by
    rw [MazeGenState.generate] at hgen
    obtain ⟨m, hmk, hgen⟩ := exceptBind_ok_ex hgen
    obtain ⟨p, hdfs, hgen⟩ := exceptBind_ok_ex hgen
    obtain ⟨m1, r1⟩ := p
    cases perfect with
    | true =>
      cases hgen
      exact ⟨_, rfl⟩
    | false =>
      obtain ⟨m2, hcyc, hgen⟩ := exceptBind_ok_ex hgen
      cases hgen
      exact ⟨_, rfl⟩
  obtain ⟨m, hm⟩ := hsome
  refine ⟨⟨m.grid, ?_⟩, ⟨st'.forbidden, ?_⟩, ⟨solveBfs m st'.forbidden, ?_⟩⟩
  · rw [MazeGenState.gridAccess, hm]
  · rw [MazeGenState.forbiddenCells, hm]
  · rw [MazeGenState.solve, hm]

/-- Witness for C10 (discharging the post-`generate` implication on a
concrete successful run). -/
theorem c10_accessors_require_generate_witness :
    ∃ st' : MazeGenState,
      (MazeGenState.init 2 1 ((0 : ℤ), (0 : ℤ)) ((1 : ℤ), (0 : ℤ))
          (some 0) true).generate (fun _ => 0) = .ok st' ∧
      (∃ g, st'.gridAccess = .ok g) ∧
      (∃ f, st'.forbiddenCells = .ok f) ∧
      (∃ p, st'.solve = .ok p) :=
  ⟨_, rfl, (c10_accessors_require_generate 2 1 ((0 : ℤ), (0 : ℤ))
      ((1 : ℤ), (0 : ℤ)) (some 0) true (fun _ => 0)).2.2.2 _ rfl⟩

/-! ## C9: determinism under a fixed seed -/

/-- C9: two `MazeGenerator` runs with identical constructor arguments and the
same non-`None` seed produce identical generator states — in particular
identical wall-mask grids, identical forbidden sets and identical solver
output — regardless of the ambient random-stream state. -/
theorem c9_seed_determinism (width height : ℕ) (entry exitPos : Cell)
    (s : ℕ) (perfect : Bool) (r₁ r₂ : RNG) :
    (MazeGenState.init width height entry exitPos (some s) perfect).generate r₁
      = (MazeGenState.init width height entry exitPos (some s) perfect).generate r₂ ∧
    (∀ st₁ st₂ : MazeGenState,
      (MazeGenState.init width height entry exitPos (some s) perfect).generate r₁
          = .ok st₁ →
      (MazeGenState.init width height entry exitPos (some s) perfect).generate r₂
          = .ok st₂ →
      st₁.gridAccess = st₂.gridAccess ∧
      st₁.forbiddenCells = st₂.forbiddenCells ∧
      st₁.solve = st₂.solve) := by
  have h : (MazeGenState.init width height entry exitPos (some s) perfect).generate r₁
      = (MazeGenState.init width height entry exitPos (some s) perfect).generate r₂ := rfl
  refine ⟨h, fun st₁ st₂ h₁ h₂ => ?_⟩
  rw [h, h₂] at h₁
  cases h₁
  exact ⟨rfl, rfl, rfl⟩

/-- Witness for C9 on a concrete seeded run. -/
theorem c9_seed_determinism_witness :
    ∃ st₁ st₂ : MazeGenState,
      (MazeGenState.init 2 1 ((0 : ℤ), (0 : ℤ)) ((1 : ℤ), (0 : ℤ))
          (some 0) true).generate (fun _ => 0) = .ok st₁ ∧
      (MazeGenState.init 2 1 ((0 : ℤ), (0 : ℤ)) ((1 : ℤ), (0 : ℤ))
          (some 0) true).generate (fun n => n + 7) = .ok st₂ ∧
      st₁.gridAccess = st₂.gridAccess ∧
      st₁.forbiddenCells = st₂.forbiddenCells ∧
      st₁.solve = st₂.solve := by
  have h := c9_seed_determinism 2 1 ((0 : ℤ), (0 : ℤ)) ((1 : ℤ), (0 : ℤ)) 0 true
    (fun _ => 0) (fun n => n + 7)
  obtain ⟨st, hst⟩ : ∃ st, (MazeGenState.init 2 1 ((0 : ℤ), (0 : ℤ))
      ((1 : ℤ), (0 : ℤ)) (some 0) true).generate (fun _ => 0) = .ok st := ⟨_, rfl⟩
  have hst₂ : (MazeGenState.init 2 1 ((0 : ℤ), (0 : ℤ)) ((1 : ℤ), (0 : ℤ))
      (some 0) true).generate (fun n => n + 7) = .ok st := by
    rw [← h.1]
    exact hst
  exact ⟨st, st, hst, hst₂, h.2 st st hst hst₂⟩

/-! ## Mask-level bit lemmas (cell values are 4-bit masks) -/

/-- Every cell value of the grid is a 4-bit mask. -/
def MaskWF (g : Grid) : Prop := ∀ c : Cell, getCell g c < 16

theorem getCell_setCell_cases (g : Grid) (c : Cell) (v : ℕ) (cc : Cell) :
    getCell (setCell g c v) cc = v ∨ getCell (setCell g c v) cc = getCell g cc := by
  rcases eq_or_ne cc.2.toNat c.2.toNat with hy | hy
  · rcases Nat.lt_or_ge c.2.toNat g.length with hrow | hrow
    · rcases eq_or_ne cc.1.toNat c.1.toNat with hx | hx
      · rcases Nat.lt_or_ge c.1.toNat (g.getD c.2.toNat []).length with hcol | hcol
        · left
          rw [getCell, setCell, hy, hx, getD_set_self _ _ _ hrow,
            getD_set_self _ _ _ hcol]
        · right
          rw [getCell, getCell, setCell, hy, hx, getD_set_self _ _ _ hrow,
            List.set_eq_of_length_le (by omega)]
      · right
        rw [getCell, getCell, setCell, hy, getD_set_self _ _ _ hrow,
          getD_set_ne _ (fun h => hx h.symm)]
    · right
      rw [getCell, getCell, setCell, List.set_eq_of_length_le (by omega)]
  · right
    exact getCell_setCell_ne (Or.inr hy) v

theorem maskWF_setCell {g : Grid} (hm : MaskWF g) {c : Cell} {v : ℕ}
    (hv : v < 16) : MaskWF (setCell g c v) := by
  intro cc
  rcases getCell_setCell_cases g c v cc with h | h <;> rw [h]
  · exact hv
  · exact hm cc

theorem clearBits_lt {m v : ℕ} (hm : m < 16) : clearBits m v < 16 :=
  lt_of_le_of_lt (Nat.sub_le _ _) hm

instance : Fintype Direction :=
  ⟨⟨{.north, .east, .south, .west}, by decide⟩, fun x => by cases x <;> decide⟩

theorem lor_value_lt {m : ℕ} (hm : m < 16) (d : Direction) :
    (m ||| d.value) < 16 := by
  have h : ∀ m' < 16, ∀ d' : Direction, (m' ||| d'.value) < 16 := by decide
  exact h m hm d

/-- Bit test after clearing a direction bit. -/
theorem clearBits_test {m : ℕ} (hm : m < 16) (d dir : Direction) :
    ((clearBits m d.value &&& dir.value) != 0)
      = (decide (dir ≠ d) && ((m &&& dir.value) != 0)) := by
  have h : ∀ m' < 16, ∀ d' dir' : Direction,
      ((clearBits m' d'.value &&& dir'.value) != 0)
        = (decide (dir' ≠ d') && ((m' &&& dir'.value) != 0)) := by decide
  exact h m hm d dir

/-- Bit test after setting a direction bit. -/
theorem lor_test {m : ℕ} (hm : m < 16) (d dir : Direction) :
    (((m ||| d.value) &&& dir.value) != 0)
      = (decide (dir = d) || ((m &&& dir.value) != 0)) := by
  have h : ∀ m' < 16, ∀ d' dir' : Direction,
      (((m' ||| d'.value) &&& dir'.value) != 0)
        = (decide (dir' = d') || ((m' &&& dir'.value) != 0)) := by decide
  exact h m hm d dir

/-- Bit test after clearing then re-setting the same direction bit:
monotone in the original bits. -/
theorem clear_then_set_test {m : ℕ} (hm : m < 16) (d dir : Direction) :
    ((((clearBits m d.value) ||| d.value) &&& dir.value) != 0)
      = (decide (dir = d) || ((m &&& dir.value) != 0)) := by
  have h : ∀ m' < 16, ∀ d' dir' : Direction,
      ((((clearBits m' d'.value) ||| d'.value) &&& dir'.value) != 0)
        = (decide (dir' = d') || ((m' &&& dir'.value) != 0)) := by decide
  exact h m hm d dir

/-! ## Specifications of the wall operations on adjacent cells -/

/-- The cell one step from `c` in direction `d`. -/
def stepCell (c : Cell) (d : Direction) : Cell :=
  (c.1 + d.delta.1, c.2 + d.delta.2)

theorem stepCell_sub (c : Cell) (d : Direction) :
    ((stepCell c d).1 - c.1, (stepCell c d).2 - c.2) = d.delta := by
  cases d <;> simp [stepCell, Direction.delta]

theorem deltaToDir_delta (d : Direction) : deltaToDir d.delta = some d := by
  cases d <;> decide

theorem stepCell_ne (c : Cell) (d : Direction) : stepCell c d ≠ c := by
  intro h
  have h1 := congrArg Prod.fst h
  have h2 := congrArg Prod.snd h
  cases d <;> simp [stepCell, Direction.delta] at h1 h2

/-- Successful `_remove_wall` between `c` and its `d`-neighbour: both facing
bits cleared, everything else untouched, well-formedness preserved. -/
theorem removeWall_spec {width height : ℕ} {g : Grid}
    (hwf : GridWF width height g) (hm : MaskWF g) {c : Cell} (d : Direction)
    (hc : isInB width height c = true)
    (hn : isInB width height (stepCell c d) = true) :
    ∃ g', removeWall g c (stepCell c d) = .ok g' ∧
      GridWF width height g' ∧ MaskWF g' ∧
      getCell g' c = clearBits (getCell g c) d.value ∧
      getCell g' (stepCell c d) = clearBits (getCell g (stepCell c d)) d.opposite.value ∧
      ∀ cc : Cell, isInB width height cc = true → cc ≠ c → cc ≠ stepCell c d →
        getCell g' cc = getCell g cc := by
  have hne : stepCell c d ≠ c := stepCell_ne c d
  have htA : (stepCell c d).1.toNat ≠ c.1.toNat ∨ (stepCell c d).2.toNat ≠ c.2.toNat :=
    toNat_ne_of_ne hc hn hne.symm
  have htB : c.1.toNat ≠ (stepCell c d).1.toNat ∨ c.2.toNat ≠ (stepCell c d).2.toNat :=
    toNat_ne_of_ne hn hc hne
  have hok : removeWall g c (stepCell c d) =
      .ok (setCell (setCell g c (clearBits (getCell g c) d.value)) (stepCell c d)
        (clearBits (getCell (setCell g c (clearBits (getCell g c) d.value))
          (stepCell c d)) d.opposite.value)) := by
    rw [removeWall, stepCell_sub, deltaToDir_delta]
  refine ⟨_, hok, ?_, ?_, ?_, ?_, ?_⟩
  · exact gridWF_setCell (gridWF_setCell hwf _ _) _ _
  · exact maskWF_setCell (maskWF_setCell hm (clearBits_lt (hm c)))
      (clearBits_lt ((maskWF_setCell hm (clearBits_lt (hm c))) _))
  · rw [getCell_setCell_ne htB, getCell_setCell_self hwf hc]
  · rw [getCell_setCell_self (gridWF_setCell hwf _ _) hn, getCell_setCell_ne htA]
  · intro cc hcc hcc1 hcc2
    rw [getCell_setCell_ne (toNat_ne_of_ne hn hcc hcc2.symm),
      getCell_setCell_ne (toNat_ne_of_ne hc hcc hcc1.symm)]

/-- Successful `_add_wall_back` between `c` and its `d`-neighbour. -/
theorem addWallBack_spec {width height : ℕ} {g : Grid}
    (hwf : GridWF width height g) (hm : MaskWF g) {c : Cell} (d : Direction)
    (hc : isInB width height c = true)
    (hn : isInB width height (stepCell c d) = true) :
    ∃ g', addWallBack g c (stepCell c d) = .ok g' ∧
      GridWF width height g' ∧ MaskWF g' ∧
      getCell g' c = (getCell g c ||| d.value) ∧
      getCell g' (stepCell c d) = (getCell g (stepCell c d) ||| d.opposite.value) ∧
      ∀ cc : Cell, isInB width height cc = true → cc ≠ c → cc ≠ stepCell c d →
        getCell g' cc = getCell g cc := by
  have hne : stepCell c d ≠ c := stepCell_ne c d
  have htA : (stepCell c d).1.toNat ≠ c.1.toNat ∨ (stepCell c d).2.toNat ≠ c.2.toNat :=
    toNat_ne_of_ne hc hn hne.symm
  have htB : c.1.toNat ≠ (stepCell c d).1.toNat ∨ c.2.toNat ≠ (stepCell c d).2.toNat :=
    toNat_ne_of_ne hn hc hne
  have hok : addWallBack g c (stepCell c d) =
      .ok (setCell (setCell g c (getCell g c ||| d.value)) (stepCell c d)
        (getCell (setCell g c (getCell g c ||| d.value)) (stepCell c d) |||
          d.opposite.value)) := by
    rw [addWallBack, find?_delta_eq_deltaToDir, stepCell_sub, deltaToDir_delta]
  refine ⟨_, hok, ?_, ?_, ?_, ?_, ?_⟩
  · exact gridWF_setCell (gridWF_setCell hwf _ _) _ _
  · exact maskWF_setCell (maskWF_setCell hm (lor_value_lt (hm c) d))
      (lor_value_lt ((maskWF_setCell hm (lor_value_lt (hm c) d)) _) _)
  · rw [getCell_setCell_ne htB, getCell_setCell_self hwf hc]
  · rw [getCell_setCell_self (gridWF_setCell hwf _ _) hn, getCell_setCell_ne htA]
  · intro cc hcc hcc1 hcc2
    rw [getCell_setCell_ne (toNat_ne_of_ne hn hcc hcc2.symm),
      getCell_setCell_ne (toNat_ne_of_ne hc hcc hcc1.symm)]

/-! ## C3: the 3x3 corridor-width invariant of the loop adder -/

/-- No fully open 3x3 block anywhere in the grid (the corridor-width
invariant, in terms of the source's own `_has_3x3_open` test). -/
def NoOpen3x3 (width height : ℕ) (g : Grid) : Prop :=
  ∀ bx byy : ℤ, 0 ≤ bx → bx ≤ (width : ℤ) - 3 → 0 ≤ byy →
    byy ≤ (height : ℤ) - 3 → has3x3Open g bx byy = false

theorem has3x3Open_iff {g : Grid} {bx byy : ℤ} :
    has3x3Open g bx byy = true ↔ ∀ i : ℕ, i < 3 → ∀ j : ℕ, j < 3 →
      (j < 2 → hasWall g (bx + (j : ℤ), byy + (i : ℤ)) Direction.east = false) ∧
      (i < 2 → hasWall g (bx + (j : ℤ), byy + (i : ℤ)) Direction.south = false) := by
  simp only [has3x3Open, List.all_eq_true, List.mem_range, Bool.and_eq_true]
  constructor
  · intro H i hi j hj
    have h := H i hi j hj
    constructor
    · intro hj2
      have h1 := h.1
      rw [if_pos hj2] at h1
      simpa using h1
    · intro hi2
      have h2 := h.2
      rw [if_pos hi2] at h2
      simpa using h2
  · intro H i hi j hj
    constructor
    · by_cases hj2 : j < 2
      · rw [if_pos hj2]
        simpa using (H i hi j hj).1 hj2
      · rw [if_neg hj2]
    · by_cases hi2 : i < 2
      · rw [if_pos hi2]
        simpa using (H i hi j hj).2 hi2
      · rw [if_neg hi2]

/-- Block cells of an in-range 3x3 block are in bounds. -/
theorem block_cell_inB {width height : ℕ} {bx byy : ℤ}
    (h1 : 0 ≤ bx) (h2 : bx ≤ (width : ℤ) - 3) (h3 : 0 ≤ byy)
    (h4 : byy ≤ (height : ℤ) - 3) {i j : ℕ} (hi : i < 3) (hj : j < 3) :
    isInB width height (bx + (j : ℤ), byy + (i : ℤ)) = true := by
  rw [isInB_iff]
  constructor
  · simp only
    omega
  refine ⟨?_, ?_, ?_⟩ <;> simp only <;> omega

/-- If no wall bit is lost from `g` to `g''` (on in-bounds cells), no new
fully open 3x3 block can appear. -/
theorem noOpen_of_mono {width height : ℕ} {g g'' : Grid}
    (hno : NoOpen3x3 width height g)
    (hmono : ∀ cc : Cell, isInB width height cc = true → ∀ dir : Direction,
      hasWall g cc dir = true → hasWall g'' cc dir = true) :
    NoOpen3x3 width height g'' := by
  intro bx byy h1 h2 h3 h4
  by_contra hop
  have hopen : has3x3Open g'' bx byy = true := by
    cases h : has3x3Open g'' bx byy
    · exact absurd h hop
    · rfl
  have hg : has3x3Open g bx byy = true := by
    rw [has3x3Open_iff] at hopen ⊢
    intro i hi j hj
    have hcc := @block_cell_inB width height bx byy h1 h2 h3 h4 i j hi hj
    refine ⟨fun hj2 => ?_, fun hi2 => ?_⟩
    · cases he : hasWall g (bx + (j : ℤ), byy + (i : ℤ)) Direction.east
      · rfl
      · have := hmono _ hcc _ he
        rw [(hopen i hi j hj).1 hj2] at this
        cases this
    · cases he : hasWall g (bx + (j : ℤ), byy + (i : ℤ)) Direction.south
      · rfl
      · have := hmono _ hcc _ he
        rw [(hopen i hi j hj).2 hi2] at this
        cases this
  rw [hno bx byy h1 h2 h3 h4] at hg
  cases hg

/-- An in-range open 3x3 block whose top-left lies within `[-2, 0]` of
`(cx, cy)` makes `_creates_3x3_nearby` report it. -/
theorem creates3x3_of {width height : ℕ} {g' : Grid} {cx cy bx byy : ℤ}
    (hbx1 : cx - 2 ≤ bx) (hbx2 : bx ≤ cx) (hby1 : cy - 2 ≤ byy)
    (hby2 : byy ≤ cy) (h1 : 0 ≤ bx) (h2 : bx ≤ (width : ℤ) - 3)
    (h3 : 0 ≤ byy) (h4 : byy ≤ (height : ℤ) - 3)
    (hopen : has3x3Open g' bx byy = true) :
    creates3x3Nearby width height g' cx cy = true := by
  rw [creates3x3Nearby, List.any_eq_true]
  refine ⟨(byy - cy + 2).toNat, List.mem_range.2 (by omega), ?_⟩
  rw [List.any_eq_true]
  refine ⟨(bx - cx + 2).toNat, List.mem_range.2 (by omega), ?_⟩
  have hbx : cx + ((bx - cx + 2).toNat : ℤ) - 2 = bx := by omega
  have hby : cy + ((byy - cy + 2).toNat : ℤ) - 2 = byy := by omega
  simp only [hbx, hby, Bool.and_eq_true, decide_eq_true_eq]
  exact ⟨⟨⟨⟨h1, h2⟩, h3⟩, h4⟩, hopen⟩

/-- The keep case of one loop-adder attempt: if the only lost wall bits are
the two facing bits between `c` and its `d`-neighbour, and the vicinity scan
around `c` finds no open block, then no open block exists anywhere. -/
theorem c3_keep_case {width height : ℕ} {g g' : Grid} {c : Cell} {d : Direction}
    (hno : NoOpen3x3 width height g)
    (hlost : ∀ cc : Cell, isInB width height cc = true → ∀ dir : Direction,
      hasWall g cc dir = true → hasWall g' cc dir = false →
        (cc = c ∧ dir = d) ∨ (cc = stepCell c d ∧ dir = d.opposite))
    (hcre : creates3x3Nearby width height g' c.1 c.2 = false) :
    NoOpen3x3 width height g' := by
  intro bx byy h1 h2 h3 h4
  by_contra hop
  have hopen : has3x3Open g' bx byy = true := by
    cases h : has3x3Open g' bx byy
    · exact absurd h hop
    · rfl
  -- `g` has no open block here, so some checked wall bit is present in `g`.
  have hex : ∃ i : ℕ, i < 3 ∧ ∃ j : ℕ, j < 3 ∧
      ((j < 2 ∧ hasWall g (bx + (j : ℤ), byy + (i : ℤ)) Direction.east = true) ∨
      (i < 2 ∧ hasWall g (bx + (j : ℤ), byy + (i : ℤ)) Direction.south = true)) := by
    have hng : ¬ has3x3Open g bx byy = true := by
      rw [hno bx byy h1 h2 h3 h4]
      exact fun h => Bool.noConfusion h
    rw [has3x3Open_iff] at hng
    push_neg at hng
    obtain ⟨i, hi, j, hj, hcase⟩ := hng
    refine ⟨i, hi, j, hj, ?_⟩
    by_cases hE : j < 2 →
        hasWall g (bx + (j : ℤ), byy + (i : ℤ)) Direction.east = false
    · obtain ⟨hi2, hS⟩ := hcase hE
      exact Or.inr ⟨hi2, Bool.ne_false_iff.1 hS⟩
    · push_neg at hE
      exact Or.inl ⟨hE.1, Bool.ne_false_iff.1 hE.2⟩
  obtain ⟨i, hi, j, hj, hcase⟩ := hex
  have hcc := @block_cell_inB width height bx byy h1 h2 h3 h4 i j hi hj
  have hvic : c.1 - 2 ≤ bx ∧ bx ≤ c.1 ∧ c.2 - 2 ≤ byy ∧ byy ≤ c.2 := by
    rcases hcase with ⟨hj2, hw⟩ | ⟨hi2, hw⟩
    · have hlostE := hlost _ hcc _ hw ((has3x3Open_iff.1 hopen i hi j hj).1 hj2)
      rcases hlostE with ⟨hcceq, hdir⟩ | ⟨hcceq, hdir⟩
      · -- the lost bit is `c`'s own bit, with d = east
        have h1' := congrArg Prod.fst hcceq
        have h2' := congrArg Prod.snd hcceq
        simp only at h1' h2'
        subst hdir
        omega
      · -- the lost bit is the neighbour's bit, with d.opposite = east, d = west
        have hd : d = Direction.west := by
          cases d <;> simp [Direction.opposite] at hdir ⊢
        subst hd
        have h1' := congrArg Prod.fst hcceq
        have h2' := congrArg Prod.snd hcceq
        simp only [stepCell, Direction.delta] at h1' h2'
        omega
    · have hlostS := hlost _ hcc _ hw ((has3x3Open_iff.1 hopen i hi j hj).2 hi2)
      rcases hlostS with ⟨hcceq, hdir⟩ | ⟨hcceq, hdir⟩
      · have h1' := congrArg Prod.fst hcceq
        have h2' := congrArg Prod.snd hcceq
        simp only at h1' h2'
        subst hdir
        omega
      · have hd : d = Direction.north := by
          cases d <;> simp [Direction.opposite] at hdir ⊢
        subst hd
        have h1' := congrArg Prod.fst hcceq
        have h2' := congrArg Prod.snd hcceq
        simp only [stepCell, Direction.delta] at h1' h2'
        omega
  rw [creates3x3_of hvic.1 hvic.2.1 hvic.2.2.1 hvic.2.2.2 h1 h2 h3 h4 hopen]
    at hcre
  cases hcre

/-! ### Neighbour and shuffle membership -/

theorem mem_getNeighbours {width height : ℕ} {c : Cell} {p : Cell × Direction}
    (hp : p ∈ getNeighbours width height c) :
    p.1 = stepCell c p.2 ∧ isInB width height p.1 = true := by
  rw [getNeighbours, List.mem_filterMap] at hp
  obtain ⟨d, _, hd⟩ := hp
  by_cases hin : isInB width height (c.1 + d.delta.1, c.2 + d.delta.2) = true
  · rw [if_pos hin] at hd
    cases hd
    exact ⟨rfl, hin⟩
  · rw [if_neg hin] at hd
    cases hd

theorem rngShuffleGo_subset {α : Type} [Inhabited α] :
    ∀ (fuel : ℕ) (r : RNG) (l : List α) (x : α),
      x ∈ (rngShuffleGo fuel r l).1 → x ∈ l := by
  intro fuel
  induction fuel with
  | zero => intro r l x hx; exact hx
  | succ n ih =>
    intro r l x hx
    match l with
    | [] => exact hx
    | a :: as =>
      rw [rngShuffleGo] at hx
      simp only [List.mem_cons] at hx ⊢
      rcases hx with hx | hx
      · subst hx
        have hlt : RNG.head r % (a :: as).length < (a :: as).length :=
          Nat.mod_lt _ (by simp)
        rw [List.getD_eq_getElem _ _ hlt]
        exact List.mem_cons.1 (List.getElem_mem hlt)
      · have := ih (RNG.tail r) ((a :: as).eraseIdx (RNG.head r % (a :: as).length)) x hx
        exact List.mem_cons.1 (List.mem_of_mem_eraseIdx this)

theorem rngShuffle_subset {α : Type} [Inhabited α] {r : RNG} {l : List α}
    {x : α} (hx : x ∈ (rngShuffle r l).1) : x ∈ l :=
  rngShuffleGo_subset l.length r l x hx

/-! ### Preservation through one attempt of the loop adder -/

/-- The inner neighbour loop preserves grid well-formedness, mask bounds and
the corridor-width invariant. -/
theorem tryNeighbours_preserve {width height : ℕ} {blocked : Finset Cell}
    {c : Cell} (hc : isInB width height c = true) :
    ∀ (l : List (Cell × Direction)) (g : Grid),
      GridWF width height g → MaskWF g → NoOpen3x3 width height g →
      (∀ p ∈ l, p.1 = stepCell c p.2 ∧ isInB width height p.1 = true) →
      ∀ g'', tryNeighbours width height blocked g c l = .ok g'' →
        GridWF width height g'' ∧ MaskWF g'' ∧ NoOpen3x3 width height g'' := by
  intro l
  induction l with
  | nil =>
    intro g hwf hm hno _ g'' heq
    cases heq
    exact ⟨hwf, hm, hno⟩
  | cons p rest ih =>
    intro g hwf hm hno hl g'' heq
    obtain ⟨n, d⟩ := p
    obtain ⟨hstep, hinb⟩ := hl (n, d) (List.mem_cons_self _ _)
    simp only at hstep hinb
    rw [tryNeighbours] at heq
    by_cases hb : n ∈ blocked
    · rw [if_pos hb] at heq
      exact ih g hwf hm hno (fun q hq => hl q (List.mem_cons_of_mem _ hq)) g'' heq
    rw [if_neg hb] at heq
    by_cases hwall : hasWall g c d = true
    · rw [if_neg (by rw [hwall]; exact fun h => Bool.noConfusion h)] at heq
      subst hstep
      obtain ⟨g', hok, hwf', hm', hcv, hnv, hframe⟩ :=
        removeWall_spec hwf hm d hc hinb
      rw [hok] at heq
      replace heq : (if creates3x3Nearby width height g' c.1 c.2 = true
          then addWallBack g' c (stepCell c d) else Except.ok g')
            = Except.ok g'' := heq
      -- how each wall bit of `g'` reads
      have hbit : ∀ cc : Cell, isInB width height cc = true → ∀ dir : Direction,
          hasWall g cc dir = true → hasWall g' cc dir = false →
            (cc = c ∧ dir = d) ∨ (cc = stepCell c d ∧ dir = d.opposite) := by
        intro cc hccin dir hgw hg'w
        by_cases hc1 : cc = c
        · subst hc1
          left
          refine ⟨rfl, ?_⟩
          rw [hasWall, hcv, clearBits_test (hm cc) d dir] at hg'w
          rw [hasWall] at hgw
          rw [hgw, Bool.and_true] at hg'w
          simpa using hg'w
        by_cases hc2 : cc = stepCell c d
        · subst hc2
          right
          refine ⟨rfl, ?_⟩
          rw [hasWall, hnv, clearBits_test (hm _) d.opposite dir] at hg'w
          rw [hasWall] at hgw
          rw [hgw, Bool.and_true] at hg'w
          simpa using hg'w
        · rw [hasWall, hframe cc hccin hc1 hc2, ← hasWall, hgw] at hg'w
          cases hg'w
      by_cases hcre : creates3x3Nearby width height g' c.1 c.2 = true
      · rw [if_pos hcre] at heq
        obtain ⟨g2, hok2, hwf2, hm2, hcv2, hnv2, hframe2⟩ :=
          addWallBack_spec hwf' hm' d hc hinb
        rw [hok2] at heq
        cases heq
        refine ⟨hwf2, hm2, ?_⟩
        refine noOpen_of_mono hno ?_
        intro cc hccin dir hgw
        by_cases hc1 : cc = c
        · subst hc1
          rw [hasWall, hcv2, hcv, clear_then_set_test (hm cc) d dir]
          rw [hasWall] at hgw
          simp [hgw]
        by_cases hc2 : cc = stepCell c d
        · subst hc2
          rw [hasWall, hnv2, hnv, clear_then_set_test (hm _) d.opposite dir]
          rw [hasWall] at hgw
          simp [hgw]
        · rw [hasWall, hframe2 cc hccin hc1 hc2, hframe cc hccin hc1 hc2,
            ← hasWall]
          exact hgw
      · rw [if_neg hcre] at heq
        cases heq
        exact ⟨hwf', hm',
          c3_keep_case hno hbit (Bool.not_eq_true _ ▸ hcre : _ = false)⟩
    · rw [if_pos (by simpa using hwall)] at heq
      exact ih g hwf hm hno (fun q hq => hl q (List.mem_cons_of_mem _ hq)) g'' heq

theorem getNeighbours_degenerate {width height : ℕ}
    (h : width = 0 ∨ height = 0) (c : Cell) :
    getNeighbours width height c = [] := by
  rw [getNeighbours, List.filterMap_eq_nil_iff]
  intro d _
  simp only
  rw [if_neg]
  intro hin
  rw [isInB_iff] at hin
  obtain ⟨h1, h2, h3, h4⟩ := hin
  simp only at h1 h2 h3 h4
  rcases h with h | h <;> subst h <;> omega

/-- One attempt of `_add_cycles_safely` preserves well-formedness and the
corridor-width invariant. -/
theorem addCyclesAttempt_preserve {width height : ℕ} {blocked : Finset Cell}
    {g : Grid} {r : RNG} (hwf : GridWF width height g) (hm : MaskWF g)
    (hno : NoOpen3x3 width height g) :
    ∀ p, addCyclesAttempt width height blocked g r = .ok p →
      GridWF width height p.1 ∧ MaskWF p.1 ∧ NoOpen3x3 width height p.1 := by
  intro p heq
  simp only [addCyclesAttempt] at heq
  split at heq
  · cases heq
    exact ⟨hwf, hm, hno⟩
  · set x : ℤ := (rngRandInt r 0 ((width : ℤ) - 1)).1 with hx
    set r1 : RNG := (rngRandInt r 0 ((width : ℤ) - 1)).2 with hr1
    set y : ℤ := (rngRandInt r1 0 ((height : ℤ) - 1)).1 with hy
    set r2 : RNG := (rngRandInt r1 0 ((height : ℤ) - 1)).2 with hr2
    cases htry : tryNeighbours width height blocked g (x, y)
        (rngShuffle r2 (getNeighbours width height (x, y))).1 with
    | error e =>
      rw [htry] at heq
      simp [Except.map] at heq
    | ok gg =>
      rw [htry] at heq
      simp only [Except.map] at heq
      cases heq
      by_cases hdim : width = 0 ∨ height = 0
      · rw [getNeighbours_degenerate hdim] at htry
        rw [show (rngShuffle r2 ([] : List (Cell × Direction))).1 = []
          from rfl] at htry
        rw [tryNeighbours] at htry
        cases htry
        exact ⟨hwf, hm, hno⟩
      · push_neg at hdim
        have hwpos : (0 : ℤ) < (width : ℤ) := by
          exact_mod_cast Nat.pos_of_ne_zero hdim.1
        have hhpos : (0 : ℤ) < (height : ℤ) := by
          exact_mod_cast Nat.pos_of_ne_zero hdim.2
        have hxv : x = (RNG.head r : ℤ) % (width : ℤ) := by
          rw [hx, rngRandInt]
          simp only [zero_add]
          congr 1
          ring
        have hyv : y = (RNG.head r1 : ℤ) % (height : ℤ) := by
          rw [hy, rngRandInt]
          simp only [zero_add]
          congr 1
          ring
        have hc : isInB width height (x, y) = true := by
          rw [isInB_iff]
          refine ⟨?_, ?_, ?_, ?_⟩ <;> simp only [hxv, hyv]
          · exact Int.emod_nonneg _ (by omega)
          · exact Int.emod_lt_of_pos _ hwpos
          · exact Int.emod_nonneg _ (by omega)
          · exact Int.emod_lt_of_pos _ hhpos
        refine tryNeighbours_preserve hc _ g hwf hm hno ?_ gg htry
        intro q hq
        exact mem_getNeighbours (rngShuffle_subset hq)

/-- The attempt loop of `_add_cycles_safely` preserves the invariants. -/
theorem addCyclesLoop_preserve {width height : ℕ} {blocked : Finset Cell} :
    ∀ (attempts : ℕ) (g : Grid) (r : RNG),
      GridWF width height g → MaskWF g → NoOpen3x3 width height g →
      ∀ p, addCyclesLoop width height blocked attempts g r = .ok p →
        GridWF width height p.1 ∧ MaskWF p.1 ∧ NoOpen3x3 width height p.1 := by
  intro attempts
  induction attempts with
  | zero =>
    intro g r hwf hm hno p heq
    cases heq
    exact ⟨hwf, hm, hno⟩
  | succ k ih =>
    intro g r hwf hm hno p heq
    rw [addCyclesLoop] at heq
    cases hat : addCyclesAttempt width height blocked g r with
    | error e => rw [hat] at heq; cases heq
    | ok q =>
      rw [hat] at heq
      obtain ⟨hwf', hm', hno'⟩ := addCyclesAttempt_preserve hwf hm hno q hat
      exact ih q.1 q.2 hwf' hm' hno' p heq

/-- C3: starting from any well-formed grid with no fully open 3x3 block, for
every forbidden set, attempt count and random stream, after
`_add_cycles_safely` returns every 3x3 sub-block still has an internal wall
(the source's own `_has_3x3_open` test fails everywhere). -/
theorem c3_add_cycles_no_open_3x3 (m : Maze) (blocked : Finset Cell)
    (attempts : ℕ) (r : RNG) (hwf : GridWF m.width m.height m.grid)
    (hm : MaskWF m.grid) (hno : NoOpen3x3 m.width m.height m.grid) :
    ∀ res, addCyclesSafely m blocked attempts r = .ok res →
      NoOpen3x3 m.width m.height res.1.grid := by
  intro res heq
  rw [addCyclesSafely] at heq
  cases hloop : addCyclesLoop m.width m.height blocked attempts m.grid r with
  | error e => rw [hloop] at heq; simp [Except.map] at heq
  | ok p =>
    rw [hloop] at heq
    simp only [Except.map] at heq
    cases heq
    exact (addCyclesLoop_preserve attempts m.grid r hwf hm hno p hloop).2.2

/-- The fresh all-walls grid is well-formed. -/
theorem gridWF_replicate (w h : ℕ) :
    GridWF w h (List.replicate h (List.replicate w 15)) := by
  refine ⟨by simp, fun i hi => ?_⟩
  rw [List.getD_eq_getElem _ _ (by simpa using hi), List.getElem_replicate,
    List.length_replicate]

/-- The fresh all-walls grid has 4-bit masks. -/
theorem maskWF_replicate (w h : ℕ) :
    MaskWF (List.replicate h (List.replicate w 15)) := by
  intro c
  rw [getCell]
  rcases Nat.lt_or_ge c.2.toNat h with h2 | h2
  · rw [List.getD_eq_getElem (List.replicate h (List.replicate w 15)) []
        (by simpa using h2), List.getElem_replicate]
    rcases Nat.lt_or_ge c.1.toNat w with h1 | h1
    · rw [List.getD_eq_getElem _ _ (by simpa using h1), List.getElem_replicate]
      omega
    · rw [List.getD_eq_default _ _ (by simpa using h1)]
      omega
  · rw [List.getD_eq_default (List.replicate h (List.replicate w 15)) []
        (by simpa using h2)]
    simp

/-- Witness for C3: a 3x3 all-walls maze, one attempt, the zero stream. -/
theorem c3_add_cycles_no_open_3x3_witness :
    ∃ res, addCyclesSafely
        ⟨3, 3, (0, 0), (2, 2), List.replicate 3 (List.replicate 3 15), ∅⟩
        ∅ 1 (fun _ => 0) = .ok res ∧
      NoOpen3x3 3 3 res.1.grid := by
  have hwf : GridWF 3 3 (List.replicate 3 (List.replicate 3 15)) :=
    gridWF_replicate 3 3
  have hm : MaskWF (List.replicate 3 (List.replicate 3 15)) :=
    maskWF_replicate 3 3
  have hno : NoOpen3x3 3 3 (List.replicate 3 (List.replicate 3 15)) := by
    intro bx byy h1 h2 h3 h4
    have hbx : bx = 0 := by omega
    have hby : byy = 0 := by omega
    subst hbx
    subst hby
    decide
  obtain ⟨res, hres⟩ : ∃ res, addCyclesSafely
      ⟨3, 3, (0, 0), (2, 2), List.replicate 3 (List.replicate 3 15), ∅⟩
      ∅ 1 (fun _ => 0) = .ok res := ⟨_, rfl⟩
  exact ⟨res, hres, c3_add_cycles_no_open_3x3 _ ∅ 1 (fun _ => 0) hwf hm hno res hres⟩

/-! ## DFS carver: reachability, the spanning-tree invariant -/

/-- One legal carving step: a 4-adjacent, in-bounds, non-forbidden target. -/
def ReachStep (width height : ℕ) (blocked : Finset Cell) (a b : Cell) : Prop :=
  (∃ d : Direction, b = stepCell a d) ∧ isInB width height b = true ∧
    b ∉ blocked

/-- `c` is reachable from `entry` through non-forbidden cells (every cell
after `entry` in bounds and outside the forbidden set). -/
def Reaches (width height : ℕ) (blocked : Finset Cell) (entry c : Cell) :
    Prop :=
  Relation.ReflTransGen (ReachStep width height blocked) entry c

/-- The wall from `a` in direction `d` is open (absent). -/
def OpenDir (g : Grid) (a : Cell) (d : Direction) : Prop :=
  hasWall g a d = false

theorem stepCell_opposite (c : Cell) (d : Direction) :
    stepCell (stepCell c d) d.opposite = c := by
  cases d <;>
    · rw [Prod.ext_iff]
      constructor <;> simp [stepCell, Direction.delta, Direction.opposite]

theorem opposite_opposite (d : Direction) : d.opposite.opposite = d := by
  cases d <;> rfl

theorem stepCell_dir_inj {c : Cell} {d1 d2 : Direction}
    (h : stepCell c d1 = stepCell c d2) : d1 = d2 := by
  by_contra hne
  have h1 := congrArg Prod.fst h
  have h2 := congrArg Prod.snd h
  cases d1 <;> cases d2 <;> (try exact hne rfl) <;>
    simp only [stepCell, Direction.delta] at h1 h2 <;> omega

/-- All in-bounds cells, as a finset. -/
def allCells (width height : ℕ) : Finset Cell :=
  (Finset.range width ×ˢ Finset.range height).image
    (fun p => ((p.1 : ℤ), (p.2 : ℤ)))

theorem mem_allCells {width height : ℕ} {c : Cell} :
    c ∈ allCells width height ↔ isInB width height c = true := by
  rw [allCells, Finset.mem_image]
  constructor
  · rintro ⟨p, hp, rfl⟩
    rw [Finset.mem_product, Finset.mem_range, Finset.mem_range] at hp
    rw [isInB_iff]
    refine ⟨?_, ?_, ?_, ?_⟩ <;> simp only <;> omega
  · intro hc
    rw [isInB_iff] at hc
    obtain ⟨h1, h2, h3, h4⟩ := hc
    refine ⟨(c.1.toNat, c.2.toNat), ?_, ?_⟩
    · rw [Finset.mem_product, Finset.mem_range, Finset.mem_range]
      constructor <;> simp only <;> omega
    · rw [Prod.ext_iff]
      constructor <;> simp only <;> omega

theorem card_allCells (width height : ℕ) :
    (allCells width height).card = width * height := by
  rw [allCells, Finset.card_image_of_injOn, Finset.card_product,
    Finset.card_range, Finset.card_range]
  intro p _ q _ hpq
  rw [Prod.ext_iff] at hpq ⊢
  obtain ⟨hx, hy⟩ := hpq
  simp only at hx hy
  exact ⟨by exact_mod_cast hx, by exact_mod_cast hy⟩

/-- The canonical (east/south oriented) open wall pairs of the grid. -/
def openEdgeFinset (width height : ℕ) (g : Grid) : Finset (Cell × Direction) :=
  ((allCells width height) ×ˢ
      ({Direction.east, Direction.south} : Finset Direction)).filter
    (fun p => isInB width height (stepCell p.1 p.2) = true ∧
      hasWall g p.1 p.2 = false)

theorem mem_openEdgeFinset {width height : ℕ} {g : Grid}
    {p : Cell × Direction} :
    p ∈ openEdgeFinset width height g ↔
      isInB width height p.1 = true ∧
      (p.2 = Direction.east ∨ p.2 = Direction.south) ∧
      isInB width height (stepCell p.1 p.2) = true ∧
      hasWall g p.1 p.2 = false := by
  rw [openEdgeFinset, Finset.mem_filter, Finset.mem_product, mem_allCells]
  simp [and_assoc]

/-- `getCell` of the fresh all-walls grid. -/
theorem getCell_replicate {width height : ℕ} {c : Cell}
    (hc : isInB width height c = true) :
    getCell (List.replicate height (List.replicate width 15)) c = 15 := by
  rw [isInB_iff] at hc
  obtain ⟨h1, h2, h3, h4⟩ := hc
  rw [getCell,
    List.getD_eq_getElem (List.replicate height (List.replicate width 15)) []
      (by simp; omega),
    List.getElem_replicate, List.getD_eq_getElem _ _ (by simp; omega),
    List.getElem_replicate]

/-- Neighbour list membership, converse direction. -/
theorem mem_getNeighbours_of {width height : ℕ} {c : Cell} (d : Direction)
    (h : isInB width height (stepCell c d) = true) :
    (stepCell c d, d) ∈ getNeighbours width height c := by
  rw [getNeighbours, List.mem_filterMap]
  refine ⟨d, by cases d <;> decide, ?_⟩
  show (if isInB width height (stepCell c d) = true
    then some (stepCell c d, d) else none) = some (stepCell c d, d)
  rw [if_pos h]

/-- Parent-tree adjacency over a visited set: the open-wall graph the DFS
maintains (each non-entry visited cell has one parent). -/
def TreeAdj (entry : Cell) (vis : Finset Cell) (par : Cell → Cell)
    (a b : Cell) : Prop :=
  a ∈ vis ∧ b ∈ vis ∧
    ((a ≠ entry ∧ par a = b) ∨ (b ≠ entry ∧ par b = a))

/-- The DFS loop invariant. -/
structure DfsInv (width height : ℕ) (entry : Cell) (blocked : Finset Cell)
    (g : Grid) (vis : Finset Cell) (stck : List Cell) : Prop where
  wf : GridWF width height g
  mask : MaskWF g
  visB : ∀ c ∈ vis, isInB width height c = true
  entryVis : entry ∈ vis
  visNb : ∀ c ∈ vis, c ≠ entry → c ∉ blocked
  visReach : ∀ c ∈ vis, Reaches width height blocked entry c
  stackVis : ∀ c ∈ stck, c ∈ vis
  stackNodup : stck.Nodup
  closed : ∀ c ∈ vis, c ∉ stck →
    ∀ b, ReachStep width height blocked c b → b ∈ vis
  count : (openEdgeFinset width height g).card + 1 = vis.card
  tree : ∃ (par : Cell → Cell) (pos : Cell → ℕ) (bnd : ℕ),
    (∀ c ∈ vis, pos c < bnd) ∧
    Set.InjOn pos ↑vis ∧
    (∀ c ∈ vis, c ≠ entry → par c ∈ vis ∧ pos (par c) < pos c ∧
      ∃ d : Direction, par c = stepCell c d) ∧
    (∀ a : Cell, isInB width height a = true → ∀ d : Direction,
      (hasWall g a d = false ↔ TreeAdj entry vis par a (stepCell a d)))

theorem rngChoice_mem {α : Type} {l : List α} (h : l ≠ []) (r : RNG)
    (dflt : α) : (rngChoice r l dflt).1 ∈ l := by
  rw [rngChoice]
  simp only
  have hlt : RNG.head r % l.length < l.length :=
    Nat.mod_lt _ (List.length_pos.2 h)
  rw [List.getD_eq_getElem _ _ hlt]
  exact List.getElem_mem hlt

/-- Updating the parent map at a fresh cell does not change tree adjacency
between old cells. -/
theorem treeAdj_update {entry : Cell} {vis : Finset Cell} {par : Cell → Cell}
    {next current a b : Cell} (ha : a ≠ next) (hb : b ≠ next) :
    TreeAdj entry (insert next vis) (Function.update par next current) a b ↔
      TreeAdj entry vis par a b := by
  unfold TreeAdj
  rw [Function.update_noteq ha, Function.update_noteq hb,
    Finset.mem_insert, Finset.mem_insert]
  constructor
  · rintro ⟨h1 | h1, h2 | h2, h3⟩
    · exact absurd h1 ha
    · exact absurd h1 ha
    · exact absurd h2 hb
    · exact ⟨h1, h2, h3⟩
  · rintro ⟨h1, h2, h3⟩
    exact ⟨Or.inr h1, Or.inr h2, h3⟩

/-- The canonical (east/south) representative of the wall pair opened
between `current` and `next = stepCell current d`. -/
def canonPair (current next : Cell) : Direction → Cell × Direction
  | .east => (current, .east)
  | .south => (current, .south)
  | .north => (next, .south)
  | .west => (next, .east)

/-- The push step of the DFS preserves the invariant. -/
theorem dfsInv_push {width height : ℕ} {entry : Cell} {blocked : Finset Cell}
    {g : Grid} {vis : Finset Cell} {current : Cell} {rest : List Cell}
    (hinv : DfsInv width height entry blocked g vis (current :: rest))
    {d : Direction} (hinB : isInB width height (stepCell current d) = true)
    (hnvis : stepCell current d ∉ vis)
    (hnb : stepCell current d ∉ blocked) :
    ∃ g', removeWall g current (stepCell current d) = .ok g' ∧
      DfsInv width height entry blocked g'
        (insert (stepCell current d) vis)
        (stepCell current d :: current :: rest) := by
  have hcur : current ∈ vis := hinv.stackVis current (List.mem_cons_self _ _)
  have hcurB : isInB width height current = true := hinv.visB current hcur
  obtain ⟨g', hok, hwf', hm', hcv, hnv, hframe⟩ :=
    removeWall_spec hinv.wf hinv.mask d hcurB hinB
  obtain ⟨next, hnext⟩ : ∃ n : Cell, n = stepCell current d := ⟨_, rfl⟩
  rw [← hnext] at hok hnv hframe hinB hnvis hnb ⊢
  have hback : stepCell next d.opposite = current := by
    rw [hnext]
    exact stepCell_opposite current d
  have hcur_ne_next : current ≠ next := fun h => hnvis (h ▸ hcur)
  have hnext_ne_entry : next ≠ entry := fun h => hnvis (h ▸ hinv.entryVis)
  have hbit_cur : ∀ dir, hasWall g' current dir =
      (decide (dir ≠ d) && hasWall g current dir) := by
    intro dir
    rw [hasWall, hcv, clearBits_test (hinv.mask current) d dir]
    rfl
  have hbit_next : ∀ dir, hasWall g' next dir =
      (decide (dir ≠ d.opposite) && hasWall g next dir) := by
    intro dir
    rw [hasWall, hnv, clearBits_test (hinv.mask next) d.opposite dir]
    rfl
  have hbit_other : ∀ cc : Cell, isInB width height cc = true →
      cc ≠ current → cc ≠ next → ∀ dir,
        hasWall g' cc dir = hasWall g cc dir := by
    intro cc hcc h1 h2 dir
    rw [hasWall, hframe cc hcc h1 h2, hasWall]
  obtain ⟨par, pos, bnd, hbnd, hinj, hpar, hopen⟩ := hinv.tree
  have hstep_rel : ReachStep width height blocked current next :=
    ⟨⟨d, hnext⟩, hinB, hnb⟩
  -- the old wall between current and next was present (both sides)
  have hold_wall : hasWall g current d = true := by
    cases hw : hasWall g current d
    · have := (hopen current hcurB d).1 hw
      rw [← hnext] at this
      exact absurd this.2.1 hnvis
    · rfl
  have hold_wall_next : hasWall g next d.opposite = true := by
    cases hw : hasWall g next d.opposite
    · have := (hopen next hinB d.opposite).1 hw
      exact absurd this.1 hnvis
    · rfl
  refine ⟨g', hok, ?_⟩
  refine ⟨hwf', hm', ?_, ?_, ?_, ?_, ?_, ?_, ?_, ?_, ?_⟩
  · intro c hc
    rcases Finset.mem_insert.1 hc with rfl | hc
    · exact hinB
    · exact hinv.visB c hc
  · exact Finset.mem_insert_of_mem hinv.entryVis
  · intro c hc hne
    rcases Finset.mem_insert.1 hc with rfl | hc
    · exact hnb
    · exact hinv.visNb c hc hne
  · intro c hc
    rcases Finset.mem_insert.1 hc with rfl | hc
    · exact Relation.ReflTransGen.tail (hinv.visReach current hcur) hstep_rel
    · exact hinv.visReach c hc
  · intro c hc
    rcases List.mem_cons.1 hc with rfl | hc
    · exact Finset.mem_insert_self _ _
    · exact Finset.mem_insert_of_mem (hinv.stackVis c hc)
  · exact List.nodup_cons.2
      ⟨fun h => hnvis (hinv.stackVis next h), hinv.stackNodup⟩
  · intro c hc hcs b hb
    rcases Finset.mem_insert.1 hc with rfl | hc
    · exact absurd (List.mem_cons_self _ _) hcs
    · have hcs' : c ∉ current :: rest :=
        fun h => hcs (List.mem_cons_of_mem _ h)
      exact Finset.mem_insert_of_mem (hinv.closed c hc hcs' b hb)
  · -- edge count
    have hp0 : ∃ p₀ : Cell × Direction,
        openEdgeFinset width height g' =
          insert p₀ (openEdgeFinset width height g) ∧
        p₀ ∉ openEdgeFinset width height g := by
      refine ⟨canonPair current next d, ?_, ?_⟩
      · apply Finset.ext
        intro q
        rw [Finset.mem_insert, mem_openEdgeFinset, mem_openEdgeFinset]
        constructor
        · rintro ⟨hq1, hq2, hq3, hq4⟩
          by_cases hqc : q.1 = current ∧ q.2 = d
          · left
            have hq : q = (current, d) := Prod.ext hqc.1 hqc.2
            cases d with
            | east => simp only [canonPair]; exact hq
            | south => simp only [canonPair]; exact hq
            | north => rw [hqc.2] at hq2; rcases hq2 with h | h <;> cases h
            | west => rw [hqc.2] at hq2; rcases hq2 with h | h <;> cases h
          by_cases hqn : q.1 = next ∧ q.2 = d.opposite
          · left
            have hq : q = (next, d.opposite) := Prod.ext hqn.1 hqn.2
            cases d with
            | east =>
              rw [hqn.2] at hq2
              rcases hq2 with h | h <;> cases h
            | south =>
              rw [hqn.2] at hq2
              rcases hq2 with h | h <;> cases h
            | north => simp only [canonPair]; exact hq
            | west => simp only [canonPair]; exact hq
          · right
            refine ⟨hq1, hq2, hq3, ?_⟩
            rw [← hq4]
            by_cases h1 : q.1 = current
            · rw [h1, hbit_cur]
              have hne : q.2 ≠ d := fun h => hqc ⟨h1, h⟩
              simp [hne]
            by_cases h2 : q.1 = next
            · rw [h2, hbit_next]
              have hne : q.2 ≠ d.opposite := fun h => hqn ⟨h2, h⟩
              simp [hne]
            · exact (hbit_other q.1 hq1 h1 h2 q.2).symm
        · rintro (rfl | ⟨hq1, hq2, hq3, hq4⟩)
          · cases d with
            | east =>
              simp only [canonPair]
              refine ⟨hcurB, Or.inl trivial, ?_, ?_⟩
              · rw [← hnext]
                exact hinB
              · rw [hbit_cur]
                simp
            | south =>
              simp only [canonPair]
              refine ⟨hcurB, Or.inr trivial, ?_, ?_⟩
              · rw [← hnext]
                exact hinB
              · rw [hbit_cur]
                simp
            | north =>
              simp only [canonPair]
              refine ⟨hinB, Or.inr trivial, ?_, ?_⟩
              · rw [show stepCell next Direction.south = current from hback]
                exact hcurB
              · rw [hbit_next]
                simp [Direction.opposite]
            | west =>
              simp only [canonPair]
              refine ⟨hinB, Or.inl trivial, ?_, ?_⟩
              · rw [show stepCell next Direction.east = current from hback]
                exact hcurB
              · rw [hbit_next]
                simp [Direction.opposite]
          · refine ⟨hq1, hq2, hq3, ?_⟩
            rw [← hq4]
            by_cases h1 : q.1 = current
            · rw [h1, hbit_cur]
              have hne : q.2 ≠ d := by
                intro h
                rw [h1, h, hold_wall] at hq4
                cases hq4
              simp [hne]
            by_cases h2 : q.1 = next
            · rw [h2, hbit_next]
              have hne : q.2 ≠ d.opposite := by
                intro h
                rw [h2, h, hold_wall_next] at hq4
                cases hq4
              simp [hne]
            · exact hbit_other q.1 hq1 h1 h2 q.2
      · rw [mem_openEdgeFinset]
        cases d <;>
          · rintro ⟨-, -, -, hw⟩
            simp only [canonPair] at hw
            simp only [Direction.opposite] at hold_wall_next
            first
              | (rw [hold_wall] at hw; cases hw)
              | (rw [hold_wall_next] at hw; cases hw)
    obtain ⟨p₀, hins, hnotmem⟩ := hp0
    have hcount := hinv.count
    rw [hins, Finset.card_insert_of_not_mem hnotmem,
      Finset.card_insert_of_not_mem hnvis]
    omega
  · -- the parent tree
    refine ⟨Function.update par next current, Function.update pos next bnd,
      bnd + 1, ?_, ?_, ?_, ?_⟩
    · intro c hc
      rcases Finset.mem_insert.1 hc with rfl | hc
      · rw [Function.update_same]
        omega
      · have hcne : c ≠ next := fun h => hnvis (h ▸ hc)
        rw [Function.update_noteq hcne]
        exact Nat.lt_succ_of_lt (hbnd c hc)
    · intro c1 hc1 c2 hc2 heq
      rw [Finset.mem_coe, Finset.mem_insert] at hc1 hc2
      have hup : ∀ c : Cell, c ∈ vis →
          Function.update pos next bnd c = pos c := by
        intro c hc
        have hcne : c ≠ next := fun h => hnvis (h ▸ hc)
        exact Function.update_noteq hcne _ _
      rcases hc1 with rfl | hc1 <;> rcases hc2 with rfl | hc2
      · rfl
      · rw [Function.update_same, hup c2 hc2] at heq
        exact absurd heq.symm (Nat.ne_of_lt (hbnd c2 hc2))
      · rw [Function.update_same, hup c1 hc1] at heq
        exact absurd heq (Nat.ne_of_lt (hbnd c1 hc1))
      · rw [hup c1 hc1, hup c2 hc2] at heq
        exact hinj (Finset.mem_coe.2 hc1) (Finset.mem_coe.2 hc2) heq
    · intro c hc hne
      rcases Finset.mem_insert.1 hc with rfl | hc
      · rw [Function.update_same, Function.update_noteq hcur_ne_next]
        refine ⟨Finset.mem_insert_of_mem hcur, ?_, d.opposite, ?_⟩
        · rw [Function.update_same]
          exact hbnd current hcur
        · exact hback.symm
      · have hcne : c ≠ next := fun h => hnvis (h ▸ hc)
        obtain ⟨hp1, hp2, hp3⟩ := hpar c hc hne
        have hpne : par c ≠ next := fun h => hnvis (h ▸ hp1)
        rw [Function.update_noteq hcne, Function.update_noteq hpne,
          Function.update_noteq hcne]
        exact ⟨Finset.mem_insert_of_mem hp1, hp2, hp3⟩
    · -- the open-wall characterisation
      intro a ha dir
      by_cases hac : a = current
      · subst hac
        by_cases hdd : dir = d
        · subst hdd
          rw [hbit_cur]
          have hdec : (decide (dir ≠ dir)) = false := by simp
          rw [hdec, Bool.false_and]
          constructor
          · intro _
            refine ⟨Finset.mem_insert_of_mem hcur, ?_, ?_⟩
            · rw [← hnext]
              exact Finset.mem_insert_self _ _
            · right
              refine ⟨?_, ?_⟩
              · rw [← hnext]
                exact hnext_ne_entry
              · rw [← hnext, Function.update_same]
          · intro _
            rfl
        · rw [hbit_cur]
          have hdec : (decide (dir ≠ d)) = true := by simp [hdd]
          rw [hdec, Bool.true_and]
          have hne_step : stepCell a dir ≠ next := by
            rw [hnext]
            exact fun h => hdd (stepCell_dir_inj h)
          rw [treeAdj_update hcur_ne_next hne_step]
          exact hopen a hcurB dir
      by_cases han : a = next
      · rw [han]
        by_cases hdd : dir = d.opposite
        · rw [hdd, hbit_next]
          have hdec : (decide (d.opposite ≠ d.opposite)) = false := by simp
          rw [hdec, Bool.false_and]
          constructor
          · intro _
            refine ⟨Finset.mem_insert_self _ _, ?_, ?_⟩
            · rw [hback]
              exact Finset.mem_insert_of_mem hcur
            · left
              refine ⟨hnext_ne_entry, ?_⟩
              rw [Function.update_same, hback]
          · intro _
            rfl
        · rw [hbit_next]
          have hwall_old : hasWall g next dir = true := by
            cases hw : hasWall g next dir
            · have := (hopen next hinB dir).1 hw
              exact absurd this.1 hnvis
            · rfl
          rw [hwall_old]
          have hdec : (decide (dir ≠ d.opposite)) = true := by simp [hdd]
          rw [hdec]
          constructor
          · intro h
            exact absurd h (by decide)
          · rintro ⟨-, hb2, hor | hor⟩
            · obtain ⟨-, hpn⟩ := hor
              rw [Function.update_same] at hpn
              have hcontr : dir = d.opposite := by
                apply @stepCell_dir_inj next dir d.opposite
                rw [← hpn, hback]
              exact absurd hcontr hdd
            · obtain ⟨hne2, hpn⟩ := hor
              by_cases hbn : stepCell next dir = next
              · exact absurd hbn (stepCell_ne next dir)
              · rw [Function.update_noteq hbn] at hpn
                rcases Finset.mem_insert.1 hb2 with hb | hb
                · exact absurd hb hbn
                · obtain ⟨hmem, -, -⟩ := hpar (stepCell next dir) hb hne2
                  exact absurd (hpn ▸ hmem) hnvis
      · -- other in-bounds cells
        rw [hbit_other a ha hac han dir]
        by_cases hbn : stepCell a dir = next
        · have hwall_old : hasWall g a dir = true := by
            cases hw : hasWall g a dir
            · have := (hopen a ha dir).1 hw
              rw [hbn] at this
              exact absurd this.2.1 hnvis
            · rfl
          rw [hwall_old]
          constructor
          · intro h
            exact absurd h (by decide)
          · rintro ⟨ha2, -, hor | hor⟩
            · obtain ⟨hne1, hp1⟩ := hor
              rcases Finset.mem_insert.1 ha2 with ha3 | ha3
              · exact absurd ha3 han
              · rw [Function.update_noteq han] at hp1
                obtain ⟨hmem, -, -⟩ := hpar a ha3 hne1
                rw [hp1, hbn] at hmem
                exact absurd hmem hnvis
            · obtain ⟨-, hp1⟩ := hor
              rw [hbn, Function.update_same] at hp1
              exact absurd hp1.symm hac
        · rw [treeAdj_update han hbn]
          exact hopen a ha dir

/-- The pop step (no unvisited non-forbidden neighbour) preserves the
invariant. -/
theorem dfsInv_pop {width height : ℕ} {entry : Cell} {blocked : Finset Cell}
    {g : Grid} {vis : Finset Cell} {current : Cell} {rest : List Cell}
    (hinv : DfsInv width height entry blocked g vis (current :: rest))
    (hemp : ∀ p ∈ getNeighbours width height current,
      ¬(p.1 ∉ vis ∧ p.1 ∉ blocked)) :
    DfsInv width height entry blocked g vis rest := by
  refine ⟨hinv.wf, hinv.mask, hinv.visB, hinv.entryVis, hinv.visNb,
    hinv.visReach, ?_, ?_, ?_, hinv.count, hinv.tree⟩
  · exact fun c hc => hinv.stackVis c (List.mem_cons_of_mem _ hc)
  · exact (List.nodup_cons.1 hinv.stackNodup).2
  · intro c hc hcs b hb
    by_cases hcc : c = current
    · subst hcc
      obtain ⟨⟨d, rfl⟩, hinb, hnb⟩ := hb
      have hmem := mem_getNeighbours_of d hinb
      have := hemp _ hmem
      push_neg at this
      rcases Decidable.em (stepCell c d ∈ vis) with hv | hv
      · exact hv
      · exact absurd (this hv) hnb
    · have hcs' : c ∉ current :: rest := by
        intro h
        rcases List.mem_cons.1 h with h | h
        · exact hcc h
        · exact hcs h
      exact hinv.closed c hc hcs' b hb

/-- The DFS loop preserves the invariant, never fails, only grows the
visited set, and empties the stack when given enough fuel. -/
theorem dfsLoop_master {width height : ℕ} {entry : Cell}
    {blocked : Finset Cell} :
    ∀ (fuel : ℕ) (g : Grid) (vis : Finset Cell) (stck : List Cell) (r : RNG),
      DfsInv width height entry blocked g vis stck →
      ∃ g' vis' r' stck',
        dfsLoop width height blocked fuel g vis stck r = .ok (g', vis', r') ∧
        DfsInv width height entry blocked g' vis' stck' ∧
        vis ⊆ vis' ∧
        (2 * (width * height - vis.card) + stck.length < fuel →
          stck' = []) := by
  intro fuel
  induction fuel with
  | zero =>
    intro g vis stck r hinv
    exact ⟨g, vis, r, stck, rfl, hinv, Finset.Subset.refl _, by omega⟩
  | succ n ih =>
    intro g vis stck r hinv
    cases stck with
    | nil =>
      exact ⟨g, vis, r, [], rfl, hinv, Finset.Subset.refl _, fun _ => rfl⟩
    | cons current rest =>
      by_cases hemp : ((getNeighbours width height current).filter
          fun p => decide (p.1 ∉ vis ∧ p.1 ∉ blocked)).isEmpty = true
      · -- pop
        have hinv' : DfsInv width height entry blocked g vis rest := by
          refine dfsInv_pop hinv ?_
          intro p hp hcon
          have : p ∈ (getNeighbours width height current).filter
              fun p => decide (p.1 ∉ vis ∧ p.1 ∉ blocked) :=
            List.mem_filter.2 ⟨hp, by simpa using hcon⟩
          rw [List.isEmpty_iff] at hemp
          rw [hemp] at this
          cases this
        obtain ⟨g', vis', r', stck', heq, hinvf, hsub, hfuel⟩ :=
          ih g vis rest r hinv'
        have hstep : dfsLoop width height blocked (n + 1) g vis
            (current :: rest) r =
              dfsLoop width height blocked n g vis rest r := by
          simp only [dfsLoop]
          rw [if_pos hemp]
        refine ⟨g', vis', r', stck', hstep.trans heq, hinvf, hsub, ?_⟩
        intro hlt
        apply hfuel
        simp only [List.length_cons] at hlt
        omega
      · -- push
        have hne : ((getNeighbours width height current).filter
            fun p => decide (p.1 ∉ vis ∧ p.1 ∉ blocked)) ≠ [] := by
          intro h
          exact hemp (by rw [h]; rfl)
        have hmem : (rngChoice r ((getNeighbours width height current).filter
            fun p => decide (p.1 ∉ vis ∧ p.1 ∉ blocked))
              ((0, 0), Direction.north)).1 ∈
            ((getNeighbours width height current).filter
              fun p => decide (p.1 ∉ vis ∧ p.1 ∉ blocked)) :=
          rngChoice_mem hne r _
        obtain ⟨hmemN, hfilt⟩ := List.mem_filter.1 hmem
        rw [decide_eq_true_eq] at hfilt
        obtain ⟨hstep1, hinB1⟩ := mem_getNeighbours hmemN
        rw [hstep1] at hfilt hinB1
        obtain ⟨g', hok, hinv'⟩ := dfsInv_push hinv hinB1 hfilt.1 hfilt.2
        rw [← hstep1] at hok hinv' hfilt
        have hcard_lt : vis.card < width * height := by
          have hsub2 : insert (rngChoice r
              ((getNeighbours width height current).filter
                fun p => decide (p.1 ∉ vis ∧ p.1 ∉ blocked))
                  ((0, 0), Direction.north)).1.1 vis ⊆
              allCells width height :=
            fun c hc => mem_allCells.2 (hinv'.visB c hc)
          have hle := Finset.card_le_card hsub2
          rw [card_allCells, Finset.card_insert_of_not_mem hfilt.1] at hle
          omega
        obtain ⟨g2, vis2, r2, stck2, heq, hinvf, hsub, hfuel⟩ :=
          ih g' _ _ ((rngChoice r ((getNeighbours width height current).filter
            fun p => decide (p.1 ∉ vis ∧ p.1 ∉ blocked))
              ((0, 0), Direction.north)).2) hinv'
        refine ⟨g2, vis2, r2, stck2, ?_,
          hinvf, Finset.Subset.trans (Finset.subset_insert _ _) hsub, ?_⟩
        · simp only [dfsLoop]
          rw [if_neg hemp, hok]
          exact heq
        · intro hlt
          apply hfuel
          rw [Finset.card_insert_of_not_mem hfilt.1]
          simp only [List.length_cons] at hlt ⊢
          omega

/-- The invariant holds at the start of the DFS. -/
theorem dfsInv_init {width height : ℕ} {entry : Cell} (blocked : Finset Cell)
    (hentry : isInB width height entry = true) :
    DfsInv width height entry blocked
      (List.replicate height (List.replicate width 15)) {entry} [entry] := by
  have hwall : ∀ a : Cell, isInB width height a = true → ∀ d : Direction,
      hasWall (List.replicate height (List.replicate width 15)) a d = true := by
    intro a ha d
    rw [hasWall, getCell_replicate ha]
    cases d <;> decide
  refine ⟨gridWF_replicate width height, maskWF_replicate width height,
    ?_, Finset.mem_singleton_self entry, ?_, ?_, ?_, ?_, ?_, ?_, ?_⟩
  · intro c hc
    rw [Finset.mem_singleton.1 hc]
    exact hentry
  · intro c hc hne
    exact absurd (Finset.mem_singleton.1 hc) hne
  · intro c hc
    rw [Finset.mem_singleton.1 hc]
    exact Relation.ReflTransGen.refl
  · intro c hc
    rw [List.mem_singleton.1 hc]
    exact Finset.mem_singleton_self entry
  · exact List.nodup_singleton entry
  · intro c hc hcs
    exact absurd (by rw [Finset.mem_singleton.1 hc]; exact
      List.mem_singleton_self entry) hcs
  · have hempty : openEdgeFinset width height
        (List.replicate height (List.replicate width 15)) = ∅ := by
      apply Finset.eq_empty_of_forall_not_mem
      intro p hp
      rw [mem_openEdgeFinset] at hp
      rw [hwall p.1 hp.1 p.2] at hp
      exact Bool.noConfusion hp.2.2.2
    rw [hempty]
    simp
  · refine ⟨id, fun _ => 0, 1, ?_, ?_, ?_, ?_⟩
    · intro c _
      exact Nat.zero_lt_one
    · intro c1 hc1 c2 hc2 _
      rw [Finset.coe_singleton, Set.mem_singleton_iff] at hc1 hc2
      rw [hc1, hc2]
    · intro c hc hne
      exact absurd (Finset.mem_singleton.1 hc) hne
    · intro a ha d
      rw [hwall a ha d]
      constructor
      · intro h
        exact Bool.noConfusion h
      · rintro ⟨h1, h2, -⟩
        rw [Finset.mem_singleton.1 h1] at h2
        exact absurd (Finset.mem_singleton.1 h2) (stepCell_ne entry d)

/-- `_generate_dfs` on a fresh maze always succeeds and its result satisfies
the DFS invariant with an empty stack. -/
theorem generateDfs_inv (m : Maze) (blocked : Finset Cell) (r : RNG)
    (hgrid : m.grid = List.replicate m.height (List.replicate m.width 15))
    (hvis : m.visited = ∅)
    (hentry : isInB m.width m.height m.entry = true) :
    ∃ m' r', generateDfs m blocked r = .ok (m', r') ∧
      m'.width = m.width ∧ m'.height = m.height ∧ m'.entry = m.entry ∧
      m'.exitPos = m.exitPos ∧
      DfsInv m.width m.height m.entry blocked m'.grid m'.visited [] := by
  have hWH : 0 < m.width ∧ 0 < m.height := by
    rw [isInB_iff] at hentry
    constructor <;> [exact_mod_cast lt_of_le_of_lt hentry.1 hentry.2.1;
      exact_mod_cast lt_of_le_of_lt hentry.2.2.1 hentry.2.2.2]
  obtain ⟨g', vis', r', stck', heq, hinv, hsub, hfuel⟩ :=
    dfsLoop_master (dfsFuel m.width m.height) m.grid
      (insert m.entry m.visited) [m.entry] r
      (by rw [hgrid, hvis, LawfulSingleton.insert_emptyc_eq]
          exact dfsInv_init blocked hentry)
  have hstck : stck' = [] := by
    apply hfuel
    rw [hvis, LawfulSingleton.insert_emptyc_eq, Finset.card_singleton, dfsFuel]
    have : 0 < m.width * m.height := Nat.mul_pos hWH.1 hWH.2
    simp only [List.length_singleton]
    omega
  refine ⟨{ m with grid := g', visited := vis' }, r', ?_, rfl, rfl, rfl, rfl,
    ?_⟩
  · rw [generateDfs, heq]
    rfl
  · rw [← hstck]
    exact hinv

/-- A 4-bit mask with all four direction bits set is 15. -/
theorem mask_all_walls {v : ℕ} (hv : v < 16) (h1 : (v &&& 1) ≠ 0)
    (h2 : (v &&& 2) ≠ 0) (h4 : (v &&& 4) ≠ 0) (h8 : (v &&& 8) ≠ 0) :
    v = 15 := by
  have h : ∀ m < 16, (m &&& 1) ≠ 0 → (m &&& 2) ≠ 0 → (m &&& 4) ≠ 0 →
      (m &&& 8) ≠ 0 → m = 15 := by decide
  exact h v hv h1 h2 h4 h8

/-- Cells outside the visited set keep all four walls. -/
theorem inv_unvisited_mask {width height : ℕ} {entry : Cell}
    {blocked : Finset Cell} {g : Grid} {vis : Finset Cell} {stck : List Cell}
    (hinv : DfsInv width height entry blocked g vis stck) {c : Cell}
    (hc : isInB width height c = true) (hnv : c ∉ vis) : getCell g c = 15 := by
  obtain ⟨par, pos, bnd, -, -, -, hopen⟩ := hinv.tree
  have hwall : ∀ d : Direction, hasWall g c d = true := by
    intro d
    cases hw : hasWall g c d
    · exact absurd ((hopen c hc d).1 hw).1 hnv
    · rfl
  have hne : ∀ v : ℕ, (v != 0) = true → v ≠ 0 := by
    intro v hv
    simpa using hv
  exact mask_all_walls (hinv.mask c)
    (hne _ (hwall Direction.north)) (hne _ (hwall Direction.east))
    (hne _ (hwall Direction.south)) (hne _ (hwall Direction.west))

/-- Counterexample to C7 as stated: a forbidden entry is itself added to the
visited set and carved through. -/
theorem c7_counterexample :
    ∃ (m' : Maze) (r' : RNG),
      generateDfs ⟨2, 1, (0, 0), (1, 0), [[15, 15]], ∅⟩
        {((0 : ℤ), (0 : ℤ))} (fun _ => 0) = .ok (m', r') ∧
      ((0 : ℤ), (0 : ℤ)) ∈ m'.visited ∧ getCell m'.grid (0, 0) ≠ 15 :=
  ⟨_, _, rfl, by decide, by decide⟩

/-- C7 (amended: for every entry NOT in the forbidden set): at no point
during `_generate_dfs` is a forbidden cell added to the visited set, and
after carving every in-bounds forbidden cell still has mask 15. -/
theorem c7_forbidden_never_visited (m : Maze) (blocked : Finset Cell)
    (r : RNG)
    (hgrid : m.grid = List.replicate m.height (List.replicate m.width 15))
    (hvis : m.visited = ∅)
    (hentry : isInB m.width m.height m.entry = true)
    (hne : m.entry ∉ blocked) :
    (∀ fuel g' vis' r',
      dfsLoop m.width m.height blocked fuel m.grid
          (insert m.entry m.visited) [m.entry] r = .ok (g', vis', r') →
        ∀ c ∈ blocked, c ∉ vis') ∧
    (∀ m' r', generateDfs m blocked r = .ok (m', r') →
      (∀ c ∈ blocked, c ∉ m'.visited) ∧
      (∀ c ∈ blocked, isInB m.width m.height c = true →
        getCell m'.grid c = 15)) := by
  have hinit : DfsInv m.width m.height m.entry blocked m.grid
      (insert m.entry m.visited) [m.entry] := by
    rw [hgrid, hvis, LawfulSingleton.insert_emptyc_eq]
    exact dfsInv_init blocked hentry
  constructor
  · intro fuel g' vis' r' heq c hcb hcv
    obtain ⟨g2, vis2, r2, stck2, heq2, hinv2, -, -⟩ :=
      dfsLoop_master fuel m.grid (insert m.entry m.visited) [m.entry] r hinit
    have h := heq.symm.trans heq2
    injection h with h
    have hv : vis' = vis2 := congrArg (fun t => t.2.1) h
    by_cases hce : c = m.entry
    · exact hne (hce ▸ hcb)
    · exact hinv2.visNb c (hv ▸ hcv) hce hcb
  · intro m' r' heq
    obtain ⟨m2, r2, heq2, -, -, -, -, hinv2⟩ :=
      generateDfs_inv m blocked r hgrid hvis hentry
    have h := heq.symm.trans heq2
    injection h with h
    have hm : m' = m2 := congrArg Prod.fst h
    rw [← hm] at hinv2
    constructor
    · intro c hcb hcv
      by_cases hce : c = m.entry
      · exact hne (hce ▸ hcb)
      · exact hinv2.visNb c hcv hce hcb
    · intro c hcb hcin
      apply inv_unvisited_mask hinv2 hcin
      intro hcv
      by_cases hce : c = m.entry
      · exact hne (hce ▸ hcb)
      · exact hinv2.visNb c hcv hce hcb

/-- Witness for the amended C7 on a concrete carve. -/
theorem c7_forbidden_never_visited_witness :
    ∃ (m' : Maze) (r' : RNG),
      generateDfs ⟨2, 1, (0, 0), (1, 0), [[15, 15]], ∅⟩
        {((1 : ℤ), (0 : ℤ))} (fun _ => 0) = .ok (m', r') ∧
      (∀ c ∈ ({((1 : ℤ), (0 : ℤ))} : Finset Cell), c ∉ m'.visited) ∧
      (∀ c ∈ ({((1 : ℤ), (0 : ℤ))} : Finset Cell), isInB 2 1 c = true →
        getCell m'.grid c = 15) := by
  obtain ⟨m', r', heq⟩ : ∃ m' r',
      generateDfs ⟨2, 1, (0, 0), (1, 0), [[15, 15]], ∅⟩
        {((1 : ℤ), (0 : ℤ))} (fun _ => 0) = .ok (m', r') := ⟨_, _, rfl⟩
  have h := (c7_forbidden_never_visited
    ⟨2, 1, (0, 0), (1, 0), [[15, 15]], ∅⟩ {((1 : ℤ), (0 : ℤ))}
    (fun _ => 0) rfl rfl (by decide) (by decide)).2 m' r' heq
  exact ⟨m', r', heq, h.1, h.2⟩

/-! ## C4: the mirroring invariant (I1) across the pipeline -/

/-- Invariant I1: any two 4-adjacent in-bounds cells hold matching facing
wall bits. -/
def Mirror (width height : ℕ) (g : Grid) : Prop :=
  ∀ c : Cell, isInB width height c = true → ∀ d : Direction,
    isInB width height (stepCell c d) = true →
    hasWall g c d = hasWall g (stepCell c d) d.opposite

/-- Every wall bit on or facing a blocked cell is set. -/
def ClosedTo (width height : ℕ) (blocked : Finset Cell) (g : Grid) : Prop :=
  ∀ c : Cell, isInB width height c = true → ∀ d : Direction,
    (c ∈ blocked ∨ stepCell c d ∈ blocked) → hasWall g c d = true

theorem treeAdj_symm {entry : Cell} {vis : Finset Cell} {par : Cell → Cell}
    {a b : Cell} (h : TreeAdj entry vis par a b) : TreeAdj entry vis par b a :=
  ⟨h.2.1, h.1, h.2.2.symm⟩

/-- The tree characterization of open walls in the DFS invariant forces
mirroring. -/
theorem inv_mirror {width height : ℕ} {entry : Cell} {blocked : Finset Cell}
    {g : Grid} {vis : Finset Cell} {stck : List Cell}
    (hinv : DfsInv width height entry blocked g vis stck) :
    Mirror width height g := by
  obtain ⟨par, pos, bnd, -, -, -, hopen⟩ := hinv.tree
  intro c hc d hcd
  have h1 := hopen c hc d
  have h2 := hopen (stepCell c d) hcd d.opposite
  rw [stepCell_opposite] at h2
  cases hw : hasWall g c d
  · exact (h2.2 (treeAdj_symm (h1.1 hw))).symm
  · cases hw2 : hasWall g (stepCell c d) d.opposite
    · have hfalse := h1.2 (treeAdj_symm (h2.1 hw2))
      rw [hw] at hfalse
      cases hfalse
    · rfl

/-- When the entry is outside the forbidden set, the DFS invariant keeps
every bit on or facing forbidden cells set. -/
theorem inv_closedTo {width height : ℕ} {entry : Cell}
    {blocked : Finset Cell} {g : Grid} {vis : Finset Cell} {stck : List Cell}
    (hinv : DfsInv width height entry blocked g vis stck)
    (hne : entry ∉ blocked) :
    ClosedTo width height blocked g := by
  have hdis : ∀ c ∈ blocked, c ∉ vis := by
    intro c hcb hcv
    by_cases hce : c = entry
    · exact hne (hce ▸ hcb)
    · exact hinv.visNb c hcv hce hcb
  obtain ⟨par, pos, bnd, -, -, -, hopen⟩ := hinv.tree
  intro c hc d hb
  cases hw : hasWall g c d
  · exfalso
    have hta := (hopen c hc d).1 hw
    rcases hb with hb | hb
    · exact hdis c hb hta.1
    · exact hdis _ hb hta.2.1
  · rfl

/-- A grid update that changes only the two facing bits of one adjacent
pair, leaving them equal, preserves mirroring. -/
theorem mirror_update {width height : ℕ} {g g' : Grid} {c : Cell}
    {d : Direction} (hm : Mirror width height g)
    (heqw : hasWall g' c d = hasWall g' (stepCell c d) d.opposite)
    (hcur : ∀ dir : Direction, dir ≠ d → hasWall g' c dir = hasWall g c dir)
    (hnext : ∀ dir : Direction, dir ≠ d.opposite →
      hasWall g' (stepCell c d) dir = hasWall g (stepCell c d) dir)
    (hother : ∀ cc : Cell, isInB width height cc = true → cc ≠ c →
      cc ≠ stepCell c d → ∀ dir : Direction,
        hasWall g' cc dir = hasWall g cc dir) :
    Mirror width height g' := by
  intro a ha dir hstep
  by_cases hac : a = c
  · subst hac
    by_cases hdd : dir = d
    · subst hdd
      exact heqw
    · rw [hcur dir hdd]
      have hne2 : stepCell a dir ≠ stepCell a d :=
        fun h => hdd (stepCell_dir_inj h)
      rw [hother _ hstep (stepCell_ne a dir) hne2]
      exact hm a ha dir hstep
  · by_cases han : a = stepCell c d
    · subst han
      by_cases hdd : dir = d.opposite
      · subst hdd
        rw [stepCell_opposite, opposite_opposite]
        exact heqw.symm
      · rw [hnext dir hdd]
        have hb1 : stepCell (stepCell c d) dir ≠ stepCell c d :=
          stepCell_ne _ _
        have hb2 : stepCell (stepCell c d) dir ≠ c := by
          intro h
          apply hdd
          exact stepCell_dir_inj (h.trans (stepCell_opposite c d).symm)
        rw [hother _ hstep hb2 hb1]
        exact hm _ ha dir hstep
    · rw [hother a ha hac han]
      by_cases hbc : stepCell a dir = c
      · have hdo : dir.opposite ≠ d := by
          intro h
          apply han
          have h2 := stepCell_opposite a dir
          rw [hbc, h] at h2
          exact h2.symm
        rw [hbc, hcur dir.opposite hdo]
        have hmm := hm a ha dir hstep
        rw [hbc] at hmm
        exact hmm
      · by_cases hbn : stepCell a dir = stepCell c d
        · have hdo : dir.opposite ≠ d.opposite := by
            intro h
            have hd2 : dir = d := by
              have h3 := congrArg Direction.opposite h
              rwa [opposite_opposite, opposite_opposite] at h3
            apply hac
            have h2 := stepCell_opposite a dir
            rw [hbn, hd2, stepCell_opposite] at h2
            exact h2.symm
          rw [hbn, hnext dir.opposite hdo]
          have hmm := hm a ha dir hstep
          rw [hbn] at hmm
          exact hmm
        · rw [hother _ hstep hbc hbn]
          exact hm a ha dir hstep

/-- A grid update touching only the facing bits of one adjacent pair of
non-blocked cells preserves closure around blocked cells. -/
theorem closedTo_update {width height : ℕ} {blocked : Finset Cell}
    {g g' : Grid} {c : Cell} {d : Direction}
    (hct : ClosedTo width height blocked g)
    (hcb : c ∉ blocked) (hnb : stepCell c d ∉ blocked)
    (hcur : ∀ dir : Direction, dir ≠ d → hasWall g' c dir = hasWall g c dir)
    (hnext : ∀ dir : Direction, dir ≠ d.opposite →
      hasWall g' (stepCell c d) dir = hasWall g (stepCell c d) dir)
    (hother : ∀ cc : Cell, isInB width height cc = true → cc ≠ c →
      cc ≠ stepCell c d → ∀ dir : Direction,
        hasWall g' cc dir = hasWall g cc dir) :
    ClosedTo width height blocked g' := by
  intro a ha dir hb
  by_cases hac : a = c
  · subst hac
    have hdd : dir ≠ d := by
      intro h
      subst h
      rcases hb with hb | hb
      · exact hcb hb
      · exact hnb hb
    rw [hcur dir hdd]
    exact hct a ha dir hb
  · by_cases han : a = stepCell c d
    · subst han
      have hdd : dir ≠ d.opposite := by
        intro h
        subst h
        rcases hb with hb | hb
        · exact hnb hb
        · rw [stepCell_opposite] at hb
          exact hcb hb
      rw [hnext dir hdd]
      exact hct _ ha dir hb
    · rw [hother a ha hac han]
      exact hct a ha dir hb

/-- The inner neighbour loop of the loop adder preserves mirroring and
blocked-closure (the attempted cell is outside the forbidden set, and so is
any acted-on neighbour). -/
theorem tryNeighbours_mirror {width height : ℕ} {blocked : Finset Cell}
    {c : Cell} (hc : isInB width height c = true) (hcb : c ∉ blocked) :
    ∀ (l : List (Cell × Direction)) (g : Grid),
      GridWF width height g → MaskWF g →
      Mirror width height g → ClosedTo width height blocked g →
      (∀ p ∈ l, p.1 = stepCell c p.2 ∧ isInB width height p.1 = true) →
      ∀ g'', tryNeighbours width height blocked g c l = .ok g'' →
        GridWF width height g'' ∧ MaskWF g'' ∧
          Mirror width height g'' ∧ ClosedTo width height blocked g'' := by
  intro l
  induction l with
  | nil =>
    intro g hwf hm hmir hct _ g'' heq
    cases heq
    exact ⟨hwf, hm, hmir, hct⟩
  | cons p rest ih =>
    intro g hwf hm hmir hct hl g'' heq
    obtain ⟨n, d⟩ := p
    obtain ⟨hstep, hinb⟩ := hl (n, d) (List.mem_cons_self _ _)
    simp only at hstep hinb
    rw [tryNeighbours] at heq
    by_cases hb : n ∈ blocked
    · rw [if_pos hb] at heq
      exact ih g hwf hm hmir hct
        (fun q hq => hl q (List.mem_cons_of_mem _ hq)) g'' heq
    rw [if_neg hb] at heq
    by_cases hwall : hasWall g c d = true
    · rw [if_neg (by rw [hwall]; exact fun h => Bool.noConfusion h)] at heq
      subst hstep
      obtain ⟨g', hok, hwf', hm', hcv, hnv, hframe⟩ :=
        removeWall_spec hwf hm d hc hinb
      rw [hok] at heq
      replace heq : (if creates3x3Nearby width height g' c.1 c.2 = true
          then addWallBack g' c (stepCell c d) else Except.ok g')
            = Except.ok g'' := heq
      have hcur1 : ∀ dir : Direction, dir ≠ d →
          hasWall g' c dir = hasWall g c dir := by
        intro dir hdir
        simp only [hasWall]
        rw [hcv, clearBits_test (hm c) d dir]
        simp [hdir]
      have hnext1 : ∀ dir : Direction, dir ≠ d.opposite →
          hasWall g' (stepCell c d) dir = hasWall g (stepCell c d) dir := by
        intro dir hdir
        simp only [hasWall]
        rw [hnv, clearBits_test (hm _) d.opposite dir]
        simp [hdir]
      have hother1 : ∀ cc : Cell, isInB width height cc = true → cc ≠ c →
          cc ≠ stepCell c d → ∀ dir : Direction,
            hasWall g' cc dir = hasWall g cc dir := by
        intro cc hccin h1 h2 dir
        simp only [hasWall]
        rw [hframe cc hccin h1 h2]
      have heqw1 : hasWall g' c d = hasWall g' (stepCell c d) d.opposite := by
        simp only [hasWall]
        rw [hcv, hnv, clearBits_test (hm c) d d,
          clearBits_test (hm _) d.opposite d.opposite]
        simp
      have hmir' := mirror_update hmir heqw1 hcur1 hnext1 hother1
      have hct' := closedTo_update hct hcb hb hcur1 hnext1 hother1
      by_cases hcre : creates3x3Nearby width height g' c.1 c.2 = true
      · rw [if_pos hcre] at heq
        obtain ⟨g2, hok2, hwf2, hm2, hcv2, hnv2, hframe2⟩ :=
          addWallBack_spec hwf' hm' d hc hinb
        rw [hok2] at heq
        have hcur2 : ∀ dir : Direction, dir ≠ d →
            hasWall g2 c dir = hasWall g' c dir := by
          intro dir hdir
          simp only [hasWall]
          rw [hcv2, lor_test (hm' c) d dir]
          simp [hdir]
        have hnext2 : ∀ dir : Direction, dir ≠ d.opposite →
            hasWall g2 (stepCell c d) dir
              = hasWall g' (stepCell c d) dir := by
          intro dir hdir
          simp only [hasWall]
          rw [hnv2, lor_test (hm' _) d.opposite dir]
          simp [hdir]
        have hother2 : ∀ cc : Cell, isInB width height cc = true → cc ≠ c →
            cc ≠ stepCell c d → ∀ dir : Direction,
              hasWall g2 cc dir = hasWall g' cc dir := by
          intro cc hccin h1 h2 dir
          simp only [hasWall]
          rw [hframe2 cc hccin h1 h2]
        have heqw2 : hasWall g2 c d
            = hasWall g2 (stepCell c d) d.opposite := by
          simp only [hasWall]
          rw [hcv2, hnv2, lor_test (hm' c) d d,
            lor_test (hm' _) d.opposite d.opposite]
          simp
        cases heq
        exact ⟨hwf2, hm2, mirror_update hmir' heqw2 hcur2 hnext2 hother2,
          closedTo_update hct' hcb hb hcur2 hnext2 hother2⟩
      · rw [if_neg hcre] at heq
        cases heq
        exact ⟨hwf', hm', hmir', hct'⟩
    · rw [if_pos (by simpa using hwall)] at heq
      exact ih g hwf hm hmir hct
        (fun q hq => hl q (List.mem_cons_of_mem _ hq)) g'' heq

/-- One attempt of `_add_cycles_safely` preserves mirroring and
blocked-closure. -/
theorem addCyclesAttempt_mirror {width height : ℕ} {blocked : Finset Cell}
    {g : Grid} {r : RNG} (hwf : GridWF width height g) (hm : MaskWF g)
    (hmir : Mirror width height g) (hct : ClosedTo width height blocked g) :
    ∀ p, addCyclesAttempt width height blocked g r = .ok p →
      GridWF width height p.1 ∧ MaskWF p.1 ∧
        Mirror width height p.1 ∧ ClosedTo width height blocked p.1 := by
  intro p heq
  simp only [addCyclesAttempt] at heq
  split at heq
  next hmem =>
    cases heq
    exact ⟨hwf, hm, hmir, hct⟩
  next hmem =>
    set x : ℤ := (rngRandInt r 0 ((width : ℤ) - 1)).1 with hx
    set r1 : RNG := (rngRandInt r 0 ((width : ℤ) - 1)).2 with hr1
    set y : ℤ := (rngRandInt r1 0 ((height : ℤ) - 1)).1 with hy
    set r2 : RNG := (rngRandInt r1 0 ((height : ℤ) - 1)).2 with hr2
    cases htry : tryNeighbours width height blocked g (x, y)
        (rngShuffle r2 (getNeighbours width height (x, y))).1 with
    | error e =>
      rw [htry] at heq
      simp [Except.map] at heq
    | ok gg =>
      rw [htry] at heq
      simp only [Except.map] at heq
      cases heq
      by_cases hdim : width = 0 ∨ height = 0
      · rw [getNeighbours_degenerate hdim] at htry
        rw [show (rngShuffle r2 ([] : List (Cell × Direction))).1 = []
          from rfl] at htry
        rw [tryNeighbours] at htry
        cases htry
        exact ⟨hwf, hm, hmir, hct⟩
      · push_neg at hdim
        have hwpos : (0 : ℤ) < (width : ℤ) := by
          exact_mod_cast Nat.pos_of_ne_zero hdim.1
        have hhpos : (0 : ℤ) < (height : ℤ) := by
          exact_mod_cast Nat.pos_of_ne_zero hdim.2
        have hxv : x = (RNG.head r : ℤ) % (width : ℤ) := by
          rw [hx, rngRandInt]
          simp only [zero_add]
          congr 1
          ring
        have hyv : y = (RNG.head r1 : ℤ) % (height : ℤ) := by
          rw [hy, rngRandInt]
          simp only [zero_add]
          congr 1
          ring
        have hc : isInB width height (x, y) = true := by
          rw [isInB_iff]
          refine ⟨?_, ?_, ?_, ?_⟩ <;> simp only [hxv, hyv]
          · exact Int.emod_nonneg _ (by omega)
          · exact Int.emod_lt_of_pos _ hwpos
          · exact Int.emod_nonneg _ (by omega)
          · exact Int.emod_lt_of_pos _ hhpos
        refine tryNeighbours_mirror hc hmem _ g hwf hm hmir hct ?_ gg htry
        intro q hq
        exact mem_getNeighbours (rngShuffle_subset hq)

/-- The attempt loop of `_add_cycles_safely` preserves mirroring and
blocked-closure. -/
theorem addCyclesLoop_mirror {width height : ℕ} {blocked : Finset Cell} :
    ∀ (attempts : ℕ) (g : Grid) (r : RNG),
      GridWF width height g → MaskWF g →
      Mirror width height g → ClosedTo width height blocked g →
      ∀ p, addCyclesLoop width height blocked attempts g r = .ok p →
        GridWF width height p.1 ∧ MaskWF p.1 ∧
          Mirror width height p.1 ∧ ClosedTo width height blocked p.1 := by
  intro attempts
  induction attempts with
  | zero =>
    intro g r hwf hm hmir hct p heq
    cases heq
    exact ⟨hwf, hm, hmir, hct⟩
  | succ k ih =>
    intro g r hwf hm hmir hct p heq
    rw [addCyclesLoop] at heq
    cases hat : addCyclesAttempt width height blocked g r with
    | error e => rw [hat] at heq; cases heq
    | ok q =>
      rw [hat] at heq
      obtain ⟨hwf', hm', hmir', hct'⟩ :=
        addCyclesAttempt_mirror hwf hm hmir hct q hat
      exact ih q.1 q.2 hwf' hm' hmir' hct' p heq

/-- Maze-level form: `_add_cycles_safely` preserves well-formedness,
mirroring and blocked-closure, and never changes the maze dimensions. -/
theorem addCyclesSafely_mirror {m : Maze} {blocked : Finset Cell}
    {attempts : ℕ} {r : RNG} (hwf : GridWF m.width m.height m.grid)
    (hm : MaskWF m.grid) (hmir : Mirror m.width m.height m.grid)
    (hct : ClosedTo m.width m.height blocked m.grid) :
    ∀ res, addCyclesSafely m blocked attempts r = .ok res →
      res.1.width = m.width ∧ res.1.height = m.height ∧
      res.1.entry = m.entry ∧ res.1.exitPos = m.exitPos ∧
      GridWF m.width m.height res.1.grid ∧ MaskWF res.1.grid ∧
      Mirror m.width m.height res.1.grid ∧
      ClosedTo m.width m.height blocked res.1.grid := by
  intro res heq
  rw [addCyclesSafely] at heq
  cases hloop : addCyclesLoop m.width m.height blocked attempts m.grid r with
  | error e => rw [hloop] at heq; simp [Except.map] at heq
  | ok p =>
    rw [hloop] at heq
    simp only [Except.map] at heq
    cases heq
    obtain ⟨hwf', hm', hmir', hct'⟩ :=
      addCyclesLoop_mirror attempts m.grid r hwf hm hmir hct p hloop
    exact ⟨rfl, rfl, rfl, rfl, hwf', hm', hmir', hct'⟩

/-- The fresh all-walls grid mirrors trivially. -/
theorem mirror_replicate {width height : ℕ} :
    Mirror width height (List.replicate height (List.replicate width 15)) := by
  intro c hc d hcd
  simp only [hasWall]
  rw [getCell_replicate hc, getCell_replicate hcd]
  cases d <;> decide

/-- A mask-15 cell holds every wall bit. -/
theorem hasWall_of_fifteen {g : Grid} {c : Cell} (h : getCell g c = 15)
    (d : Direction) : hasWall g c d = true := by
  simp only [hasWall]
  rw [h]
  cases d <;> decide

/-- `hasWall` only looks at the cell value. -/
theorem hasWall_eq_of_getCell {g g' : Grid} {c c' : Cell}
    (h : getCell g c = getCell g' c') (d : Direction) :
    hasWall g c d = hasWall g' c' d := by
  simp only [hasWall, h]

/-- Stamping the pattern preserves mirroring, provided every bit on or
facing a pattern cell was already set. -/
theorem mirror_embed42 {width height : ℕ} {g : Grid}
    (hwf : GridWF width height g) (hmir : Mirror width height g)
    (hct : ClosedTo width height (get42Cells width height) g) :
    Mirror width height (embed42 g width height).1 := by
  by_cases hfit : canFit42 width height = true
  · have hinb : ∀ c ∈ get42List width height, isInB width height c = true :=
      fun c hc => get42List_inB hfit hc
    have hmem : ∀ c ∈ get42List width height,
        getCell (embed42 g width height).1 c = 15 := by
      intro c hc
      simp only [embed42, hfit, if_true]
      exact foldl_stamp_mem _ g hwf hinb c hc
    have hnot : ∀ c : Cell, isInB width height c = true →
        c ∉ get42List width height →
        getCell (embed42 g width height).1 c = getCell g c := by
      intro c hcin hcnm
      simp only [embed42, hfit, if_true]
      exact foldl_stamp_not_mem _ g hinb c hcin hcnm
    have hsetList : ∀ c : Cell, c ∈ get42Cells width height ↔
        c ∈ get42List width height := by
      intro c
      rw [get42Cells, if_pos hfit, List.mem_toFinset]
    intro c hcin d hstep
    by_cases hcm : c ∈ get42List width height
    · by_cases hnm : stepCell c d ∈ get42List width height
      · rw [hasWall_of_fifteen (hmem c hcm) d,
          hasWall_of_fifteen (hmem _ hnm) d.opposite]
      · rw [hasWall_of_fifteen (hmem c hcm) d]
        rw [hasWall_eq_of_getCell (hnot _ hstep hnm) d.opposite]
        have hback : stepCell (stepCell c d) d.opposite
            ∈ get42Cells width height := by
          rw [stepCell_opposite]
          exact (hsetList c).2 hcm
        exact (hct _ hstep d.opposite (Or.inr hback)).symm
    · by_cases hnm : stepCell c d ∈ get42List width height
      · rw [hasWall_of_fifteen (hmem _ hnm) d.opposite,
          hasWall_eq_of_getCell (hnot c hcin hcm) d]
        exact hct c hcin d (Or.inr ((hsetList _).2 hnm))
      · rw [hasWall_eq_of_getCell (hnot c hcin hcm) d,
          hasWall_eq_of_getCell (hnot _ hstep hnm) d.opposite]
        exact hmir c hcin d hstep
  · rw [Bool.not_eq_true] at hfit
    have hg : (embed42 g width height).1 = g := by
      simp only [embed42, hfit, Bool.false_eq_true, if_false]
    rw [hg]
    exact hmir

/-- Successful `Maze.__init__`: the stored fields, the all-walls grid, and
the validity facts the constructor checked. -/
theorem mkMaze_spec {width height : ℕ} {entry exitPos : Cell} {m : Maze}
    (h : mkMaze width height entry exitPos = .ok m) :
    m.width = width ∧ m.height = height ∧ m.entry = entry ∧
    m.exitPos = exitPos ∧
    m.grid = List.replicate height (List.replicate width 15) ∧
    m.visited = (∅ : Finset Cell) ∧
    isInB width height entry = true ∧ isInB width height exitPos = true ∧
    entry ≠ exitPos := by
  rw [mkMaze] at h
  by_cases hw : width = 0
  · rw [if_pos hw] at h
    cases h
  rw [if_neg hw] at h
  by_cases hh : height = 0
  · rw [if_pos hh] at h
    cases h
  rw [if_neg hh] at h
  obtain ⟨u1, -, h⟩ := exceptBind_ok_ex h
  obtain ⟨u2, -, h⟩ := exceptBind_ok_ex h
  obtain ⟨entryV, hev, h⟩ := exceptBind_ok_ex h
  obtain ⟨exitV, hxv, h⟩ := exceptBind_ok_ex h
  have hval : ∀ (c : Cell) (s : String) (c' : Cell),
      validateCoord width height c s = .ok c' →
      c' = c ∧ isInB width height c = true := by
    intro c s c' hv
    rw [validateCoord] at hv
    by_cases hin : isInB width height c = true
    · rw [if_pos hin] at hv
      cases hv
      exact ⟨rfl, hin⟩
    · rw [if_neg hin] at hv
      cases hv
  obtain ⟨he1, he2⟩ := hval entry "entry" entryV hev
  obtain ⟨hx1, hx2⟩ := hval exitPos "exit" exitV hxv
  rw [he1, hx1] at h
  by_cases hee : entry = exitPos
  · rw [if_pos hee] at h
    cases h
  rw [if_neg hee] at h
  cases h
  exact ⟨rfl, rfl, rfl, rfl, rfl, rfl, he2, hx2, hee⟩

/-- The stream `generate` carves with: the freshly seeded stream when a
seed was given (`random.seed(seed)`), else the ambient global stream. -/
def pickRNG (seed : Option ℕ) (ambient : RNG) : RNG :=
  match seed with
  | some s => seedRNG s
  | none => ambient

/-- Counterexample to C4 as stated: when the entry lies on a pattern cell,
the final (post-stamp) grid of a generated maze holds a wall bit toward a
neighbour that does not hold the facing bit back, so invariant I1 fails
after the stamping stage. -/
theorem c4_counterexample :
    ∃ (st' : MazeGenState) (m : Maze),
      (MazeGenState.init 10 7 (1, 1) (0, 0) (some 0) true).generate
        (fun _ => 0) = .ok st' ∧
      st'.mazeOpt = some m ∧
      isInB 10 7 ((1 : ℤ), (1 : ℤ)) = true ∧
      isInB 10 7 (stepCell (1, 1) Direction.north) = true ∧
      hasWall m.grid (1, 1) Direction.north = true ∧
      hasWall m.grid (stepCell (1, 1) Direction.north)
        Direction.north.opposite = false ∧
      ¬ Mirror 10 7 m.grid := by
  refine ⟨_, _, rfl, rfl, by decide, by decide, by decide, by decide,
    fun hmir => ?_⟩
  exact absurd (hmir (1, 1) (by decide) Direction.north (by decide))
    (by decide)

/-- C4 (amended: provided the entry is not a pattern cell): every grid the
pipeline produces satisfies invariant I1 at every stage — after
construction, after carving, after the loop adder, and after stamping. -/
theorem c4_mirroring_all_stages (width height : ℕ) (entry exitPos : Cell)
    (seed : Option ℕ) (perfect : Bool) (ambient : RNG) (st' : MazeGenState)
    (hgen : (MazeGenState.init width height entry exitPos seed
        perfect).generate ambient = .ok st')
    (hentry : entry ∉ get42Cells width height) :
    ∃ (m m1 : Maze) (r1 : RNG) (m2 mf : Maze),
      mkMaze width height entry exitPos = .ok m ∧
      generateDfs m (get42Cells width height) (pickRNG seed ambient)
        = .ok (m1, r1) ∧
      (if perfect then m2 = m1
       else ∃ rr, addCyclesSafely m1 (get42Cells width height) 300 r1
          = .ok (m2, rr)) ∧
      st'.mazeOpt = some mf ∧
      mf.grid = (embed42 m2.grid width height).1 ∧
      Mirror width height m.grid ∧ Mirror width height m1.grid ∧
      Mirror width height m2.grid ∧ Mirror width height mf.grid := by
  rw [MazeGenState.generate] at hgen
  simp only [MazeGenState.init] at hgen
  obtain ⟨m, hmk, hgen⟩ := exceptBind_ok_ex hgen
  obtain ⟨p, hdfs, hgen⟩ := exceptBind_ok_ex hgen
  obtain ⟨m1, r1⟩ := p
  replace hdfs : generateDfs m (get42Cells width height)
      (pickRNG seed ambient) = .ok (m1, r1) := hdfs
  obtain ⟨hW, hH, hE, hX, hG, hV, heB, hxB, hex⟩ := mkMaze_spec hmk
  obtain ⟨m1', r1', hdfs', hw1, hh1, he1, hx1, hinv⟩ :=
    generateDfs_inv m (get42Cells width height) (pickRNG seed ambient)
      (by rw [hG, hW, hH]) hV (by rw [hW, hH, hE]; exact heB)
  have hpair := hdfs.symm.trans hdfs'
  injection hpair with hpair
  have hm1 : m1 = m1' := congrArg Prod.fst hpair
  rw [← hm1] at hw1 hh1 he1 hx1 hinv
  rw [hW, hH, hE] at hinv
  have hWf1 : GridWF width height m1.grid := hinv.wf
  have hMk1 : MaskWF m1.grid := hinv.mask
  have hMir1 : Mirror width height m1.grid := inv_mirror hinv
  have hCt1 : ClosedTo width height (get42Cells width height) m1.grid :=
    inv_closedTo hinv hentry
  have hMir0 : Mirror width height m.grid := by
    rw [hG]
    exact mirror_replicate
  cases perfect with
  | true =>
    cases hgen
    exact ⟨m, m1, r1, m1,
      { m1 with grid := (embed42 m1.grid width height).1 }, hmk, hdfs,
      by simp, rfl, rfl, hMir0, hMir1, hMir1,
      mirror_embed42 hWf1 hMir1 hCt1⟩
  | false =>
    rw [if_neg Bool.false_ne_true] at hgen
    obtain ⟨m2, hcyc, hgen⟩ := exceptBind_ok_ex hgen
    cases hres : addCyclesSafely m1 (get42Cells width height) 300 r1 with
    | error e =>
      rw [hres] at hcyc
      simp [Except.map] at hcyc
    | ok q =>
      rw [hres] at hcyc
      simp only [Except.map] at hcyc
      cases hcyc
      have hw1' : m1.width = width := by rw [hw1, hW]
      have hh1' : m1.height = height := by rw [hh1, hH]
      obtain ⟨hqw, hqh, hqe, hqx, hWf2, hMk2, hMir2, hCt2⟩ :=
        addCyclesSafely_mirror (by rw [hw1', hh1']; exact hWf1) hMk1
          (by rw [hw1', hh1']; exact hMir1)
          (by rw [hw1', hh1']; exact hCt1) q hres
      rw [hw1', hh1'] at hWf2 hMir2 hCt2
      cases hgen
      refine ⟨m, m1, r1, q.1,
        { q.1 with grid := (embed42 q.1.grid width height).1 }, hmk, hdfs,
        ?_, rfl, rfl, hMir0, hMir1, hMir2,
        mirror_embed42 hWf2 hMir2 hCt2⟩
      rw [if_neg Bool.false_ne_true]
      exact ⟨q.2, hres⟩

/-- Witness for the amended C4 on a concrete run (the 2x1 maze is too small
for the pattern, so no cell is forbidden and the entry is certainly not a
pattern cell). -/
theorem c4_mirroring_all_stages_witness :
    ∃ (st' : MazeGenState),
      (MazeGenState.init 2 1 ((0 : ℤ), (0 : ℤ)) ((1 : ℤ), (0 : ℤ))
          (some 0) true).generate (fun _ => 0) = .ok st' ∧
      ∃ (m m1 : Maze) (r1 : RNG) (m2 mf : Maze),
        mkMaze 2 1 ((0 : ℤ), (0 : ℤ)) ((1 : ℤ), (0 : ℤ)) = .ok m ∧
        generateDfs m (get42Cells 2 1)
          (pickRNG (some 0) (fun _ => 0)) = .ok (m1, r1) ∧
        (if true then m2 = m1
         else ∃ rr, addCyclesSafely m1 (get42Cells 2 1) 300 r1
            = .ok (m2, rr)) ∧
        st'.mazeOpt = some mf ∧
        mf.grid = (embed42 m2.grid 2 1).1 ∧
        Mirror 2 1 m.grid ∧ Mirror 2 1 m1.grid ∧
        Mirror 2 1 m2.grid ∧ Mirror 2 1 mf.grid := by
  obtain ⟨st', hgen⟩ : ∃ st',
      (MazeGenState.init 2 1 ((0 : ℤ), (0 : ℤ)) ((1 : ℤ), (0 : ℤ))
        (some 0) true).generate (fun _ => 0) = .ok st' := ⟨_, rfl⟩
  exact ⟨st', hgen, c4_mirroring_all_stages 2 1 ((0 : ℤ), (0 : ℤ))
    ((1 : ℤ), (0 : ℤ)) (some 0) true (fun _ => 0) st' hgen (by decide)⟩

/-! ## C1: the carver produces a spanning tree of the reachable cells -/

/-- An open wall joins `a` to its in-bounds neighbour `b`. -/
def OpenAdj (width height : ℕ) (g : Grid) (a b : Cell) : Prop :=
  isInB width height a = true ∧ isInB width height b = true ∧
    ∃ d : Direction, b = stepCell a d ∧ hasWall g a d = false

/-- The undirected graph of open walls between in-bounds cells. -/
def openGraph (width height : ℕ) (g : Grid) : SimpleGraph Cell where
  Adj a b := OpenAdj width height g a b ∨ OpenAdj width height g b a
  symm := by
    intro a b h
    exact h.symm
  loopless := by
    intro a h
    rcases h with ⟨-, -, d, hd, -⟩ | ⟨-, -, d, hd, -⟩ <;>
      exact stepCell_ne a d hd.symm

/-- A graph whose every edge joins a vertex to its image under a
position-decreasing parent map is acyclic (the maximal-position vertex of a
cycle would have both cycle neighbours equal to its parent). -/
theorem parent_isAcyclic {V : Type} [DecidableEq V] (G : SimpleGraph V)
    (r : V) (par : V → V) (pos : V → ℕ)
    (hadj : ∀ u v : V, G.Adj u v →
      (u ≠ r ∧ par u = v ∧ pos v < pos u) ∨
      (v ≠ r ∧ par v = u ∧ pos u < pos v)) :
    G.IsAcyclic := by
  intro v c hc
  obtain ⟨x, hx1, hx2⟩ := Finset.exists_max_image c.support.toFinset pos
    ⟨v, List.mem_toFinset.2 c.start_mem_support⟩
  rw [List.mem_toFinset] at hx1
  have hmax : ∀ y ∈ c.support, pos y ≤ pos x := by
    intro y hy
    exact hx2 y (List.mem_toFinset.2 hy)
  have hc' : (c.rotate hx1).IsCycle := hc.rotate hx1
  have hmax' : ∀ y ∈ (c.rotate hx1).support, pos y ≤ pos x := by
    intro y hy
    rw [SimpleGraph.Walk.support_eq_cons] at hy
    rcases List.mem_cons.1 hy with rfl | hy
    · exact le_refl _
    · exact hmax y (List.mem_of_mem_tail
        ((SimpleGraph.Walk.support_rotate c hx1).perm.mem_iff.1 hy))
  generalize c.rotate hx1 = c2 at hc' hmax'
  have hnn : ¬ c2.Nil := hc'.isCircuit.not_nil
  obtain ⟨y, h1, p, rfl⟩ := SimpleGraph.Walk.not_nil_iff.1 hnn
  have hyx : y ≠ x := (G.ne_of_adj h1).symm
  have hpn : ¬ p.Nil := SimpleGraph.Walk.not_nil_of_ne hyx
  obtain ⟨w1, hh, pp, rfl⟩ := SimpleGraph.Walk.not_nil_iff.1 hpn
  obtain ⟨z, q, h2, hq⟩ := SimpleGraph.Walk.exists_cons_eq_concat hh pp
  have hymem : y ∈ (SimpleGraph.Walk.cons h1
      (SimpleGraph.Walk.cons hh pp)).support := by
    simp [SimpleGraph.Walk.support_cons]
  have hzp : z ∈ (SimpleGraph.Walk.cons hh pp).support := by
    rw [hq, SimpleGraph.Walk.support_concat, List.concat_eq_append]
    exact List.mem_append_left _ q.end_mem_support
  have hzmem : z ∈ (SimpleGraph.Walk.cons h1
      (SimpleGraph.Walk.cons hh pp)).support := by
    rw [SimpleGraph.Walk.support_cons]
    exact List.mem_cons_of_mem x hzp
  have hpx1 : par x = y := by
    rcases hadj x y h1 with ⟨-, hp1, -⟩ | ⟨-, -, hlt⟩
    · exact hp1
    · exact absurd hlt (not_lt.2 (hmax' y hymem))
  have hpx2 : par x = z := by
    rcases hadj z x h2 with ⟨-, -, hlt⟩ | ⟨-, hp2, -⟩
    · exact absurd hlt (not_lt.2 (hmax' z hzmem))
    · exact hp2
  have hyz : y = z := by rw [← hpx1, hpx2]
  subst hyz
  by_cases hqn : q.Nil
  · have hql : q.length = 0 := SimpleGraph.Walk.nil_iff_length_eq.1 hqn
    have h3 := hc'.three_le_length
    have hlp : (SimpleGraph.Walk.cons hh pp).length = q.length + 1 := by
      rw [hq, SimpleGraph.Walk.length_concat]
    rw [SimpleGraph.Walk.length_cons, hlp, hql] at h3
    omega
  · have hnd : (SimpleGraph.Walk.cons hh pp).support.Nodup := by
      have hcnd := hc'.support_nodup
      rwa [SimpleGraph.Walk.support_cons, List.tail_cons] at hcnd
    have hqnd : q.support.Nodup := by
      rw [hq, SimpleGraph.Walk.support_concat, List.concat_eq_append] at hnd
      exact (List.nodup_append.1 hnd).1
    have hqp : q.IsPath := SimpleGraph.Walk.IsPath.mk' hqnd
    rw [SimpleGraph.Walk.isPath_iff_eq_nil] at hqp
    exact hqn (hqp ▸ SimpleGraph.Walk.Nil.nil)

/-- Every vertex of `P` reaches the root along parent edges. -/
theorem parent_preconnected {V : Type} (G : SimpleGraph V) (r : V)
    (par : V → V) (pos : V → ℕ) (P : V → Prop)
    (hstep : ∀ v, P v → v ≠ r → P (par v) ∧ pos (par v) < pos v ∧
      G.Adj v (par v)) :
    ∀ v, P v → G.Reachable v r := by
  have key : ∀ n v, pos v ≤ n → P v → G.Reachable v r := by
    intro n
    induction n with
    | zero =>
      intro v hle hv
      by_cases hvr : v = r
      · subst hvr
        exact SimpleGraph.Reachable.refl _
      · obtain ⟨-, hlt, -⟩ := hstep v hv hvr
        omega
    | succ k ih =>
      intro v hle hv
      by_cases hvr : v = r
      · subst hvr
        exact SimpleGraph.Reachable.refl _
      · obtain ⟨hP, hlt, hadj⟩ := hstep v hv hvr
        exact hadj.reachable.trans (ih (par v) (by omega) hP)
  exact fun v hv => key (pos v) v (le_refl _) hv

/-- Under the DFS invariant there is exactly one simple open-wall path
between any two visited cells. -/
theorem inv_existsUnique_path {width height : ℕ} {entry : Cell}
    {blocked : Finset Cell} {g : Grid} {vis : Finset Cell} {stck : List Cell}
    (hinv : DfsInv width height entry blocked g vis stck) :
    ∀ a ∈ vis, ∀ b ∈ vis,
      ∃! p : (openGraph width height g).Walk a b, p.IsPath := by
  obtain ⟨par, pos, bnd, hbnd, hinj, hp, hopen⟩ := hinv.tree
  have hadj : ∀ u v : Cell, (openGraph width height g).Adj u v →
      (u ≠ entry ∧ par u = v ∧ pos v < pos u) ∨
      (v ≠ entry ∧ par v = u ∧ pos u < pos v) := by
    intro u v huv
    have huv' : OpenAdj width height g u v ∨ OpenAdj width height g v u :=
      huv
    rcases huv' with ⟨hu, hv, d, rfl, hw⟩ | ⟨hv, hu, d, rfl, hw⟩
    · have hta := (hopen u hu d).1 hw
      rcases hta.2.2 with ⟨hne, hpar⟩ | ⟨hne, hpar⟩
      · left
        refine ⟨hne, hpar, ?_⟩
        have hlt := (hp u hta.1 hne).2.1
        rwa [hpar] at hlt
      · right
        refine ⟨hne, hpar, ?_⟩
        have hlt := (hp _ hta.2.1 hne).2.1
        rwa [hpar] at hlt
    · have hta := (hopen v hv d).1 hw
      rcases hta.2.2 with ⟨hne, hpar⟩ | ⟨hne, hpar⟩
      · right
        refine ⟨hne, hpar, ?_⟩
        have hlt := (hp v hta.1 hne).2.1
        rwa [hpar] at hlt
      · left
        refine ⟨hne, hpar, ?_⟩
        have hlt := (hp _ hta.2.1 hne).2.1
        rwa [hpar] at hlt
  have hacyc := parent_isAcyclic (openGraph width height g) entry par pos hadj
  have hreach : ∀ v ∈ vis, (openGraph width height g).Reachable v entry := by
    intro v hv
    refine parent_preconnected (openGraph width height g) entry par pos
      (fun c => c ∈ vis) ?_ v hv
    intro c hc hcr
    obtain ⟨hpv, hplt, d, hpd⟩ := hp c hc hcr
    refine ⟨hpv, hplt, ?_⟩
    have hstepvis : stepCell c d ∈ vis := by
      rw [← hpd]
      exact hpv
    have hta : TreeAdj entry vis par c (stepCell c d) :=
      ⟨hc, hstepvis, Or.inl ⟨hcr, hpd⟩⟩
    have hw := (hopen c (hinv.visB c hc) d).2 hta
    rw [hpd]
    exact Or.inl ⟨hinv.visB c hc, hinv.visB _ hstepvis, d, rfl, hw⟩
  intro a ha b hb
  obtain ⟨w⟩ := (hreach a ha).trans (hreach b hb).symm
  refine ⟨w.bypass, SimpleGraph.Walk.bypass_isPath w, ?_⟩
  intro q hq
  have huniq := SimpleGraph.isAcyclic_iff_path_unique.1 hacyc
    ⟨q, hq⟩ ⟨w.bypass, SimpleGraph.Walk.bypass_isPath w⟩
  exact congrArg Subtype.val huniq

/-- C1: on a fresh maze, `_generate_dfs` succeeds; afterwards the visited
set is exactly the set of cells reachable from the entry through
non-forbidden cells, the number of removed wall pairs is one less than the
number of visited cells, and any two visited cells are joined by exactly
one simple path through open walls (the spanning-tree property of a perfect
maze). -/
theorem c1_dfs_spanning_tree (m : Maze) (blocked : Finset Cell) (r : RNG)
    (hgrid : m.grid = List.replicate m.height (List.replicate m.width 15))
    (hvis : m.visited = ∅)
    (hentry : isInB m.width m.height m.entry = true) :
    ∃ m' r', generateDfs m blocked r = .ok (m', r') ∧
      (∀ c : Cell, c ∈ m'.visited ↔
        Reaches m.width m.height blocked m.entry c) ∧
      (openEdgeFinset m.width m.height m'.grid).card + 1
        = m'.visited.card ∧
      (∀ a ∈ m'.visited, ∀ b ∈ m'.visited,
        ∃! p : (openGraph m.width m.height m'.grid).Walk a b, p.IsPath) := by
  obtain ⟨m', r', heq, hw, hh, he, hx, hinv⟩ :=
    generateDfs_inv m blocked r hgrid hvis hentry
  refine ⟨m', r', heq, ?_, hinv.count, ?_⟩
  · intro c
    constructor
    · exact hinv.visReach c
    · intro hr
      induction hr with
      | refl => exact hinv.entryVis
      | tail hab hstep ih =>
        exact hinv.closed _ ih (List.not_mem_nil _) _ hstep
  · intro a ha b hb
    exact inv_existsUnique_path hinv a ha b hb

/-- Witness for C1 on a concrete 2x1 carve with no forbidden cells. -/
theorem c1_dfs_spanning_tree_witness :
    ∃ m' r', generateDfs ⟨2, 1, (0, 0), (1, 0), [[15, 15]], ∅⟩
        (∅ : Finset Cell) (fun _ => 0) = .ok (m', r') ∧
      (∀ c : Cell, c ∈ m'.visited ↔ Reaches 2 1 ∅ (0, 0) c) ∧
      (openEdgeFinset 2 1 m'.grid).card + 1 = m'.visited.card ∧
      (∀ a ∈ m'.visited, ∀ b ∈ m'.visited,
        ∃! p : (openGraph 2 1 m'.grid).Walk a b, p.IsPath) :=
  c1_dfs_spanning_tree ⟨2, 1, (0, 0), (1, 0), [[15, 15]], ∅⟩ ∅ (fun _ => 0)
    rfl rfl (by decide)

/-! ## C2: the BFS solver returns a shortest valid path -/

/-- A direction list is a valid walk from `c` to `t`: every step lands on an
in-bounds, non-forbidden cell through an open wall (the exact conditions the
BFS expansion checks). -/
def PathOk (width height : ℕ) (blocked : Finset Cell) (g : Grid) :
    Cell → List Direction → Cell → Prop
  | c, [], t => c = t
  | c, d :: rest, t =>
    isInB width height (stepCell c d) = true ∧
      hasWall g c d = false ∧ stepCell c d ∉ blocked ∧
      PathOk width height blocked g (stepCell c d) rest t

theorem pathOk_snoc {width height : ℕ} {blocked : Finset Cell} {g : Grid} :
    ∀ {p : List Direction} {c s : Cell},
      PathOk width height blocked g c p s → ∀ {d : Direction},
      isInB width height (stepCell s d) = true →
      hasWall g s d = false → stepCell s d ∉ blocked →
      PathOk width height blocked g c (p ++ [d]) (stepCell s d) := by
  intro p
  induction p with
  | nil =>
    intro c s hp d h1 h2 h3
    cases hp
    exact ⟨h1, h2, h3, rfl⟩
  | cons a rest ih =>
    intro c s hp d h1 h2 h3
    obtain ⟨g1, g2, g3, g4⟩ := hp
    exact ⟨g1, g2, g3, ih g4 h1 h2 h3⟩

theorem pathOk_snoc_inv {width height : ℕ} {blocked : Finset Cell}
    {g : Grid} :
    ∀ {p : List Direction} {c t : Cell} {d : Direction},
      PathOk width height blocked g c (p ++ [d]) t →
      ∃ s, PathOk width height blocked g c p s ∧
        isInB width height (stepCell s d) = true ∧
        hasWall g s d = false ∧ stepCell s d ∉ blocked ∧
        t = stepCell s d := by
  intro p
  induction p with
  | nil =>
    intro c t d hp
    obtain ⟨h1, h2, h3, h4⟩ := hp
    cases h4
    exact ⟨c, rfl, h1, h2, h3, rfl⟩
  | cons a rest ih =>
    intro c t d hp
    obtain ⟨h1, h2, h3, h4⟩ := hp
    obtain ⟨s, hs1, hs2, hs3, hs4, hs5⟩ := ih h4
    exact ⟨s, ⟨h1, h2, h3, hs1⟩, hs2, hs3, hs4, hs5⟩

/-- The BFS loop invariant over `(visited, queue)`. -/
structure BfsInv (width height : ℕ) (target : Cell) (blocked : Finset Cell)
    (g : Grid) (entry : Cell) (vis : Finset Cell)
    (queue : List (Cell × List Direction)) : Prop where
  visB : ∀ c ∈ vis, isInB width height c = true ∨ c = entry
  entryVis : entry ∈ vis
  queueVis : ∀ e ∈ queue, e.1 ∈ vis
  nodupQ : (queue.map Prod.fst).Nodup
  valid : ∀ e ∈ queue, PathOk width height blocked g entry e.2 e.1
  minimal : ∀ e ∈ queue, ∀ q,
    PathOk width height blocked g entry q e.1 → e.2.length ≤ q.length
  sorted : List.Pairwise (fun a b => a.2.length ≤ b.2.length) queue
  within : ∀ e1 ∈ queue, ∀ e2 ∈ queue, e1.2.length ≤ e2.2.length + 1
  frontier : ∀ e ∈ queue, (∀ e2 ∈ queue, e.2.length ≤ e2.2.length) →
    ∀ t, t ∉ vis → ∀ q, PathOk width height blocked g entry q t →
      e.2.length + 1 ≤ q.length
  closedV : ∀ c ∈ vis, c ∉ queue.map Prod.fst → ∀ d : Direction,
    isInB width height (stepCell c d) = true → hasWall g c d = false →
    stepCell c d ∉ blocked → stepCell c d ∈ vis
  exitQ : target ∈ vis → target ∈ queue.map Prod.fst

/-- The invariant carried through one neighbour-expansion fold (`current`
popped with path of length `plen`; `vis₀`, `qrest` are the state right after
the pop). -/
structure BfsFoldInv (width height : ℕ) (target : Cell)
    (blocked : Finset Cell) (g : Grid) (entry current : Cell) (plen : ℕ)
    (vis₀ : Finset Cell) (qrest : List (Cell × List Direction))
    (v : Finset Cell) (Q : List (Cell × List Direction)) : Prop where
  visB : ∀ c ∈ v, isInB width height c = true ∨ c = entry
  sub : vis₀ ⊆ v
  queueVis : ∀ e ∈ Q, e.1 ∈ v
  nodupQ : (Q.map Prod.fst).Nodup
  valid : ∀ e ∈ Q, PathOk width height blocked g entry e.2 e.1
  minimal : ∀ e ∈ Q, ∀ q,
    PathOk width height blocked g entry q e.1 → e.2.length ≤ q.length
  sorted : List.Pairwise (fun a b => a.2.length ≤ b.2.length) Q
  lenLow : ∀ e ∈ Q, plen ≤ e.2.length
  lenBound : ∀ e ∈ Q, e.2.length ≤ plen + 1
  qrestSub : ∀ e ∈ qrest, e ∈ Q
  closedExc : ∀ c ∈ v, c ∉ Q.map Prod.fst → c ≠ current →
    ∀ d : Direction, isInB width height (stepCell c d) = true →
      hasWall g c d = false → stepCell c d ∉ blocked → stepCell c d ∈ v
  exitQ : target ∈ v → target ∈ Q.map Prod.fst
  msr : 2 * (width * height + 1 - v.card) + Q.length ≤
    2 * (width * height + 1 - vis₀.card) + qrest.length

/-- Expanding the neighbours of the popped cell preserves the fold
invariant, visits every open non-forbidden neighbour, and only grows the
visited set. -/
theorem bfs_expand {width height : ℕ} {target : Cell}
    {blocked : Finset Cell} {g : Grid} {entry current : Cell}
    {path : List Direction} {vis₀ : Finset Cell}
    {qrest : List (Cell × List Direction)}
    (hJ : ∀ t, t ∉ vis₀ → ∀ q,
      PathOk width height blocked g entry q t → path.length + 1 ≤ q.length)
    (hcur : PathOk width height blocked g entry path current) :
    ∀ (l : List (Cell × Direction)) (v : Finset Cell)
      (Q : List (Cell × List Direction)),
      (∀ p ∈ l, p.1 = stepCell current p.2 ∧
        isInB width height p.1 = true) →
      BfsFoldInv width height target blocked g entry current path.length
        vis₀ qrest v Q →
      BfsFoldInv width height target blocked g entry current path.length
          vis₀ qrest
          (l.foldl (fun acc p =>
            if decide (p.1 ∉ acc.1) && !(hasWall g current p.2) &&
                decide (p.1 ∉ blocked) then
              (insert p.1 acc.1, acc.2 ++ [(p.1, path ++ [p.2])])
            else acc) (v, Q)).1
          (l.foldl (fun acc p =>
            if decide (p.1 ∉ acc.1) && !(hasWall g current p.2) &&
                decide (p.1 ∉ blocked) then
              (insert p.1 acc.1, acc.2 ++ [(p.1, path ++ [p.2])])
            else acc) (v, Q)).2 ∧
      (∀ p ∈ l, hasWall g current p.2 = false → p.1 ∉ blocked →
        p.1 ∈ (l.foldl (fun acc p =>
            if decide (p.1 ∉ acc.1) && !(hasWall g current p.2) &&
                decide (p.1 ∉ blocked) then
              (insert p.1 acc.1, acc.2 ++ [(p.1, path ++ [p.2])])
            else acc) (v, Q)).1) ∧
      v ⊆ (l.foldl (fun acc p =>
            if decide (p.1 ∉ acc.1) && !(hasWall g current p.2) &&
                decide (p.1 ∉ blocked) then
              (insert p.1 acc.1, acc.2 ++ [(p.1, path ++ [p.2])])
            else acc) (v, Q)).1 := by
  intro l
  induction l with
  | nil =>
    intro v Q _ hinv
    exact ⟨hinv, fun p hp => absurd hp (List.not_mem_nil p),
      Finset.Subset.refl v⟩
  | cons p rest ih =>
    intro v Q hl hinv
    obtain ⟨hstep, hinb⟩ := hl p (List.mem_cons_self _ _)
    simp only [List.foldl_cons]
    cases hcond : (decide (p.1 ∉ v) && !(hasWall g current p.2) &&
        decide (p.1 ∉ blocked)) with
    | false =>
      rw [if_neg Bool.false_ne_true]
      obtain ⟨hinv', hgood, hsub⟩ :=
        ih v Q (fun q hq => hl q (List.mem_cons_of_mem _ hq)) hinv
      refine ⟨hinv', ?_, hsub⟩
      intro q hq hqw hqb
      rcases List.mem_cons.1 hq with rfl | hq
      · -- the condition failed though the wall is open and the cell is
        -- allowed, so the cell was already visited
        have hv : q.1 ∈ v := by
          by_contra hnv
          rw [hqw] at hcond
          simp [hnv, hqb] at hcond
        exact hsub hv
      · exact hgood q hq hqw hqb
    | true =>
      rw [Bool.and_eq_true, Bool.and_eq_true] at hcond
      obtain ⟨⟨hc1, hc2⟩, hc3⟩ := hcond
      have hv : p.1 ∉ v := of_decide_eq_true hc1
      have hw : hasWall g current p.2 = false := by
        rwa [Bool.not_eq_true'] at hc2
      have hb : p.1 ∉ blocked := of_decide_eq_true hc3
      rw [if_pos rfl]
      have hnew : PathOk width height blocked g entry (path ++ [p.2]) p.1 := by
        rw [hstep]
        exact pathOk_snoc hcur (hstep ▸ hinb) hw (hstep ▸ hb)
      have hcells : ∀ e ∈ Q, e.1 ∈ v := hinv.queueVis
      have hinv' : BfsFoldInv width height target blocked g entry current
          path.length vis₀ qrest (insert p.1 v)
          (Q ++ [(p.1, path ++ [p.2])]) := by
        refine ⟨?_, ?_, ?_, ?_, ?_, ?_, ?_, ?_, ?_, ?_, ?_, ?_, ?_⟩
        · intro c hc
          rcases Finset.mem_insert.1 hc with rfl | hc
          · exact Or.inl hinb
          · exact hinv.visB c hc
        · exact hinv.sub.trans (Finset.subset_insert _ _)
        · intro e he
          rcases List.mem_append.1 he with he | he
          · exact Finset.mem_insert_of_mem (hcells e he)
          · rw [List.mem_singleton.1 he]
            exact Finset.mem_insert_self _ _
        · rw [List.map_append, List.nodup_append]
          refine ⟨hinv.nodupQ, List.nodup_singleton _, ?_⟩
          intro a ha hmem
          rw [List.mem_map] at ha
          obtain ⟨e, he, rfl⟩ := ha
          rw [List.map_singleton, List.mem_singleton] at hmem
          exact hv (hmem ▸ hcells e he)
        · intro e he
          rcases List.mem_append.1 he with he | he
          · exact hinv.valid e he
          · rw [List.mem_singleton.1 he]
            exact hnew
        · intro e he q hq
          rcases List.mem_append.1 he with he | he
          · exact hinv.minimal e he q hq
          · rw [List.mem_singleton.1 he] at hq ⊢
            simp only [List.length_append, List.length_singleton]
            exact hJ p.1 (fun hmem => hv (hinv.sub hmem)) q hq
        · rw [List.pairwise_append]
          refine ⟨hinv.sorted, List.pairwise_singleton _ _, ?_⟩
          intro a ha b hb2
          rw [List.mem_singleton.1 hb2]
          simp only [List.length_append, List.length_singleton]
          exact hinv.lenBound a ha
        · intro e he
          rcases List.mem_append.1 he with he | he
          · exact hinv.lenLow e he
          · rw [List.mem_singleton.1 he]
            simp only [List.length_append, List.length_singleton]
            omega
        · intro e he
          rcases List.mem_append.1 he with he | he
          · exact hinv.lenBound e he
          · rw [List.mem_singleton.1 he]
            simp only [List.length_append, List.length_singleton]
            omega
        · intro e he
          exact List.mem_append_left _ (hinv.qrestSub e he)
        · intro c hc hcq hcc d h1 h2 h3
          rcases Finset.mem_insert.1 hc with rfl | hc
          · exfalso
            apply hcq
            rw [List.map_append, List.map_singleton]
            exact List.mem_append_right _ (List.mem_singleton_self _)
          · refine Finset.mem_insert_of_mem
              (hinv.closedExc c hc ?_ hcc d h1 h2 h3)
            intro hmem
            apply hcq
            rw [List.map_append]
            exact List.mem_append_left _ hmem
        · intro ht
          rcases Finset.mem_insert.1 ht with ht | ht
          · rw [List.map_append, List.map_singleton]
            exact List.mem_append_right _ (ht ▸ List.mem_singleton_self _)
          · rw [List.map_append]
            exact List.mem_append_left _ (hinv.exitQ ht)
        · have hcard : (insert p.1 v).card = v.card + 1 :=
            Finset.card_insert_of_not_mem hv
          have hbound : (insert p.1 v).card ≤ width * height + 1 := by
            have hsub2 : insert p.1 v ⊆ insert entry (allCells width height) := by
              intro c hc
              rcases Finset.mem_insert.1 hc with rfl | hc
              · exact Finset.mem_insert_of_mem (mem_allCells.2 hinb)
              · rcases hinv.visB c hc with hcb | hcb
                · exact Finset.mem_insert_of_mem (mem_allCells.2 hcb)
                · rw [hcb]
                  exact Finset.mem_insert_self _ _
            have hle := Finset.card_le_card hsub2
            have hcu := Finset.card_insert_le entry (allCells width height)
            rw [card_allCells] at hcu
            omega
          have hmsr := hinv.msr
          simp only [List.length_append, List.length_singleton]
          omega
      obtain ⟨hinvf, hgood, hsub⟩ := ih (insert p.1 v)
        (Q ++ [(p.1, path ++ [p.2])])
        (fun q hq => hl q (List.mem_cons_of_mem _ hq)) hinv'
      refine ⟨hinvf, ?_, (Finset.subset_insert _ _).trans hsub⟩
      intro q hq hqw hqb
      rcases List.mem_cons.1 hq with rfl | hq
      · exact hsub (Finset.mem_insert_self _ _)
      · exact hgood q hq hqw hqb

/-- When the queue has emptied, no valid path reaches the exit (otherwise
the exit would be visited, hence still queued). -/
theorem bfs_empty_no_path {width height : ℕ} {target : Cell}
    {blocked : Finset Cell} {g : Grid} {entry : Cell} {vis : Finset Cell}
    (hinv : BfsInv width height target blocked g entry vis []) :
    ¬ ∃ q, PathOk width height blocked g entry q target := by
  rintro ⟨q, hq⟩
  have hall : ∀ (p : List Direction) (c t : Cell), c ∈ vis →
      PathOk width height blocked g c p t → t ∈ vis := by
    intro p
    induction p with
    | nil =>
      intro c t hc hp
      exact (show c = t from hp) ▸ hc
    | cons d rest ih =>
      intro c t hc hp
      obtain ⟨h1, h2, h3, h4⟩ := hp
      have hstep : stepCell c d ∈ vis :=
        hinv.closedV c hc (List.not_mem_nil c) d h1 h2 h3
      exact ih (stepCell c d) t hstep h4
  have htv : target ∈ vis := hall q entry target hinv.entryVis hq
  have hmem := hinv.exitQ htv
  cases hmem

/-- After a full expansion of the popped cell, the loop invariant holds
again. -/
theorem bfs_reinv {width height : ℕ} {target : Cell}
    {blocked : Finset Cell} {g : Grid} {entry current : Cell}
    {path : List Direction} {vis : Finset Cell}
    {qrest : List (Cell × List Direction)} {v : Finset Cell}
    {Q : List (Cell × List Direction)}
    (hinv : BfsInv width height target blocked g entry vis
      ((current, path) :: qrest))
    (hJ : ∀ t, t ∉ vis → ∀ q,
      PathOk width height blocked g entry q t → path.length + 1 ≤ q.length)
    (hfold : BfsFoldInv width height target blocked g entry current
      path.length vis qrest v Q)
    (hgood : ∀ p ∈ getNeighbours width height current,
      hasWall g current p.2 = false → p.1 ∉ blocked → p.1 ∈ v) :
    BfsInv width height target blocked g entry v Q := by
  refine ⟨hfold.visB, hfold.sub hinv.entryVis, hfold.queueVis, hfold.nodupQ,
    hfold.valid, hfold.minimal, hfold.sorted, ?_, ?_, ?_, hfold.exitQ⟩
  · intro e1 he1 e2 he2
    have h1 := hfold.lenBound e1 he1
    have h2 := hfold.lenLow e2 he2
    omega
  · intro e he hemin t ht q hq
    by_cases hlen : e.2.length ≤ path.length
    · have := hJ t (fun hmem => ht (hfold.sub hmem)) q hq
      omega
    · push_neg at hlen
      have hbound := hfold.lenBound e he
      have hq2 : path.length + 2 ≤ q.length := by
        by_contra hle
        push_neg at hle
        have hne : q ≠ [] := by
          intro h
          subst h
          have hte : entry = t := hq
          exact ht (hte ▸ hfold.sub hinv.entryVis)
        obtain ⟨q', d, rfl⟩ := (List.eq_nil_or_concat' q).resolve_left hne
        obtain ⟨s, hs1, hs2, hs3, hs4, rfl⟩ := pathOk_snoc_inv hq
        have hql : q'.length ≤ path.length := by
          simp only [List.length_append, List.length_singleton] at hle
          omega
        have hsvis : s ∈ vis := by
          by_contra hns
          have := hJ s hns q' hs1
          omega
        by_cases hsc : s = current
        · subst hsc
          have hmem := mem_getNeighbours_of d hs2
          exact ht (hgood _ hmem hs3 hs4)
        · by_cases hsq : s ∈ ((current, path) :: qrest).map Prod.fst
          · rw [List.map_cons] at hsq
            rcases List.mem_cons.1 hsq with hsq | hsq
            · exact hsc hsq
            · rw [List.mem_map] at hsq
              obtain ⟨es, hes, hes1⟩ := hsq
              have hesQ : es ∈ Q := hfold.qrestSub es hes
              have hmin := hfold.minimal es hesQ q' (hes1.symm ▸ hs1)
              have := hemin es hesQ
              omega
          · have hsv := hinv.closedV s hsvis hsq d hs2 hs3 hs4
            exact ht (hfold.sub hsv)
      omega
  · intro c hc hcq d h1 h2 h3
    by_cases hcc : c = current
    · subst hcc
      have hmem := mem_getNeighbours_of d h1
      exact hgood _ hmem h2 h3
    · exact hfold.closedExc c hc hcq hcc d h1 h2 h3

/-- The BFS loop, given enough fuel and the invariant, returns a shortest
valid path when one exists and `[]` when none does. -/
theorem bfsLoop_master {width height : ℕ} {target : Cell}
    {blocked : Finset Cell} {g : Grid} {entry : Cell} :
    ∀ (fuel : ℕ) (vis : Finset Cell)
      (queue : List (Cell × List Direction)),
      BfsInv width height target blocked g entry vis queue →
      2 * (width * height + 1 - vis.card) + queue.length ≤ fuel →
      ((∃ q, PathOk width height blocked g entry q target) →
        PathOk width height blocked g entry
          (bfsLoop width height target blocked g fuel vis queue) target ∧
        ∀ q, PathOk width height blocked g entry q target →
          (bfsLoop width height target blocked g fuel vis queue).length
            ≤ q.length) ∧
      ((¬ ∃ q, PathOk width height blocked g entry q target) →
        bfsLoop width height target blocked g fuel vis queue = []) := by
  intro fuel
  induction fuel with
  | zero =>
    intro vis queue hinv hM
    cases queue with
    | nil =>
      exact ⟨fun hex => absurd hex (bfs_empty_no_path hinv), fun _ => rfl⟩
    | cons e qs =>
      exfalso
      simp only [List.length_cons] at hM
      omega
  | succ n ih =>
    intro vis queue hinv hM
    cases queue with
    | nil =>
      refine ⟨fun hex => absurd hex (bfs_empty_no_path hinv), fun _ => ?_⟩
      simp only [bfsLoop]
    | cons e qrest =>
      obtain ⟨current, path⟩ := e
      by_cases hct : current = target
      · have hret : bfsLoop width height target blocked g (n + 1) vis
            ((current, path) :: qrest) = path := by
          simp only [bfsLoop]
          rw [if_pos hct]
        rw [hret]
        constructor
        · intro hex
          refine ⟨?_, ?_⟩
          · have hv := hinv.valid (current, path) (List.mem_cons_self _ _)
            rwa [hct] at hv
          · intro q hq
            rw [← hct] at hq
            exact hinv.minimal (current, path) (List.mem_cons_self _ _) q hq
        · intro hnex
          exfalso
          apply hnex
          refine ⟨path, ?_⟩
          have hv := hinv.valid (current, path) (List.mem_cons_self _ _)
          rwa [hct] at hv
      · have hhead : ∀ e2 ∈ (current, path) :: qrest,
            path.length ≤ e2.2.length := by
          intro e2 he2
          rcases List.mem_cons.1 he2 with rfl | he2
          · exact le_refl _
          · exact (List.pairwise_cons.1 hinv.sorted).1 e2 he2
        have hJ : ∀ t, t ∉ vis → ∀ q,
            PathOk width height blocked g entry q t →
            path.length + 1 ≤ q.length :=
          hinv.frontier (current, path) (List.mem_cons_self _ _) hhead
        have hcur : PathOk width height blocked g entry path current :=
          hinv.valid (current, path) (List.mem_cons_self _ _)
        have hstart : BfsFoldInv width height target blocked g entry
            current path.length vis qrest vis qrest := by
          refine ⟨hinv.visB, Finset.Subset.refl _, ?_, ?_, ?_, ?_, ?_, ?_,
            ?_, fun e he => he, ?_, ?_, le_refl _⟩
          · exact fun e he => hinv.queueVis e (List.mem_cons_of_mem _ he)
          · have hnd := hinv.nodupQ
            rw [List.map_cons, List.nodup_cons] at hnd
            exact hnd.2
          · exact fun e he => hinv.valid e (List.mem_cons_of_mem _ he)
          · exact fun e he => hinv.minimal e (List.mem_cons_of_mem _ he)
          · exact (List.pairwise_cons.1 hinv.sorted).2
          · exact fun e he => hhead e (List.mem_cons_of_mem _ he)
          · intro e he
            exact hinv.within e (List.mem_cons_of_mem _ he)
              (current, path) (List.mem_cons_self _ _)
          · intro c hc hcq hcc d h1 h2 h3
            refine hinv.closedV c hc ?_ d h1 h2 h3
            rw [List.map_cons]
            intro hm
            rcases List.mem_cons.1 hm with hm | hm
            · exact hcc hm
            · exact hcq hm
          · intro ht
            have hx := hinv.exitQ ht
            rw [List.map_cons] at hx
            rcases List.mem_cons.1 hx with hm | hm
            · exact absurd hm.symm hct
            · exact hm
        set F := (getNeighbours width height current).foldl
          (fun acc p =>
            if decide (p.1 ∉ acc.1) && !(hasWall g current p.2) &&
                decide (p.1 ∉ blocked) then
              (insert p.1 acc.1, acc.2 ++ [(p.1, path ++ [p.2])])
            else acc) (vis, qrest) with hF
        obtain ⟨hinvf, hgood, hsub⟩ := bfs_expand hJ hcur
          (getNeighbours width height current) vis qrest
          (fun q hq => mem_getNeighbours hq) hstart
        rw [← hF] at hinvf hgood hsub
        have hinv' : BfsInv width height target blocked g entry F.1 F.2 :=
          bfs_reinv hinv hJ hinvf hgood
        have hM' : 2 * (width * height + 1 - F.1.card) + F.2.length ≤ n := by
          have hmsr := hinvf.msr
          simp only [List.length_cons] at hM
          omega
        have hstep : bfsLoop width height target blocked g (n + 1) vis
            ((current, path) :: qrest)
            = bfsLoop width height target blocked g n F.1 F.2 := by
          simp only [bfsLoop]
          rw [if_neg hct, hF]
        rw [hstep]
        exact ih F.1 F.2 hinv' hM'

/-- The invariant at the start of `_solve_bfs`. -/
theorem bfsInv_init {width height : ℕ} {target : Cell}
    {blocked : Finset Cell} {g : Grid} (entry : Cell) :
    BfsInv width height target blocked g entry {entry} [(entry, [])] := by
  refine ⟨?_, Finset.mem_singleton_self entry, ?_, ?_, ?_, ?_, ?_, ?_, ?_,
    ?_, ?_⟩
  · intro c hc
    exact Or.inr (Finset.mem_singleton.1 hc)
  · intro e he
    rw [List.mem_singleton.1 he]
    exact Finset.mem_singleton_self entry
  · rw [List.map_singleton]
    exact List.nodup_singleton _
  · intro e he
    rw [List.mem_singleton.1 he]
    exact rfl
  · intro e he q hq
    rw [List.mem_singleton.1 he]
    exact Nat.zero_le _
  · exact List.pairwise_singleton _ _
  · intro e1 he1 e2 he2
    rw [List.mem_singleton.1 he1, List.mem_singleton.1 he2]
    exact Nat.le_succ _
  · intro e he hemin t ht q hq
    rw [List.mem_singleton.1 he]
    cases q with
    | nil =>
      exfalso
      exact ht (Finset.mem_singleton.2 (show entry = t from hq).symm)
    | cons d rest =>
      simp only [List.length_cons, List.length_nil]
      omega
  · intro c hc hcq d h1 h2 h3
    exfalso
    apply hcq
    rw [Finset.mem_singleton.1 hc, List.map_singleton]
    exact List.mem_singleton_self entry
  · intro ht
    rw [List.map_singleton]
    exact List.mem_singleton.2 (Finset.mem_singleton.1 ht)

/-- C2: `_solve_bfs` returns a valid walk from entry to exit of minimal
length among all walks through open walls avoiding forbidden cells, and
returns the empty path (hence the empty string) exactly when the exit is
unreachable. -/
theorem c2_solve_bfs_shortest (m : Maze) (blocked : Finset Cell) :
    ((∃ q, PathOk m.width m.height blocked m.grid m.entry q m.exitPos) →
      PathOk m.width m.height blocked m.grid m.entry
        (solveBfsDirs m blocked) m.exitPos ∧
      ∀ q, PathOk m.width m.height blocked m.grid m.entry q m.exitPos →
        (solveBfsDirs m blocked).length ≤ q.length) ∧
    ((¬ ∃ q, PathOk m.width m.height blocked m.grid m.entry q m.exitPos) →
      solveBfsDirs m blocked = [] ∧ solveBfs m blocked = "") ∧
    solveBfs m blocked
      = ⟨(solveBfsDirs m blocked).map Direction.letter⟩ := by
  have hM : 2 * (m.width * m.height + 1 - ({m.entry} : Finset Cell).card)
      + [((m.entry : Cell), ([] : List Direction))].length
      ≤ bfsFuel m.width m.height := by
    rw [Finset.card_singleton, bfsFuel, List.length_singleton]
    omega
  have h := @bfsLoop_master m.width m.height m.exitPos blocked m.grid
    m.entry (bfsFuel m.width m.height) {m.entry} [(m.entry, [])]
    (@bfsInv_init m.width m.height m.exitPos blocked m.grid m.entry) hM
  replace h :
      ((∃ q, PathOk m.width m.height blocked m.grid m.entry q m.exitPos) →
        PathOk m.width m.height blocked m.grid m.entry
          (solveBfsDirs m blocked) m.exitPos ∧
        ∀ q, PathOk m.width m.height blocked m.grid m.entry q m.exitPos →
          (solveBfsDirs m blocked).length ≤ q.length) ∧
      ((¬ ∃ q, PathOk m.width m.height blocked m.grid m.entry q m.exitPos) →
        solveBfsDirs m blocked = []) := h
  refine ⟨h.1, ?_, rfl⟩
  intro hnex
  have hd := h.2 hnex
  refine ⟨hd, ?_⟩
  rw [solveBfs, hd]
  rfl

/-- Witness for C2 on a 2x1 maze whose east/west wall pair is open. -/
theorem c2_solve_bfs_shortest_witness :
    PathOk 2 1 ∅ [[13, 7]] (0, 0)
      (solveBfsDirs ⟨2, 1, (0, 0), (1, 0), [[13, 7]], ∅⟩ ∅) (1, 0) ∧
    ∀ q, PathOk 2 1 ∅ [[13, 7]] (0, 0) q (1, 0) →
      (solveBfsDirs ⟨2, 1, (0, 0), (1, 0), [[13, 7]], ∅⟩ ∅).length
        ≤ q.length :=
  (c2_solve_bfs_shortest ⟨2, 1, (0, 0), (1, 0), [[13, 7]], ∅⟩ ∅).1
    ⟨[Direction.east], by decide, by decide, by decide, rfl⟩

end AMazeIng
